import Mathlib

/-!
Shallow embedding of the tender-reconciliation engine
(`src/tender_reconciliation_final_v8_updated.py`) of the
Rapidbeats/tender-reconciliation-dashboard repository.

Floating-point values of the source are modelled as exact rationals (`ℚ`);
the pandas DataFrame of a store's entries is modelled as a `List Entry`;
the Python list `used_flags` (indexed by position in the sorted frame) is
modelled as a function `Nat → Bool`.  Row order of a DataFrame is list
order; the positional indices produced by `reset_index(drop=True)` are
modelled by pairing each entry with its position (`enumFromE`).
-/

namespace TenderRec

/-- One cleaned row of a tender file, as produced by `read_tender_file`
(lines 91-163): `Store_ID`, `Tender_Type`, `Sales_Date`,
`Auto_Approved_Date` (kept in the frame after filtering) and the numeric
`Store_Response_Entry`. -/
structure Entry where
  storeId : Int
  tenderType : String
  salesDate : String
  autoApproved : String
  value : ℚ
deriving DecidableEq, Repr, Inhabited

/-- The four `Netting_Type` strings emitted by
`find_and_remove_netting_items`: `'Within-Tender'`, `'Cross-Tender'`,
`'Within-Tender-Multiple entries'`, `'Cross-Tender-Multiple entries'`. -/
inductive NettingType where
  | withinTender
  | crossTender
  | withinTenderMultiple
  | crossTenderMultiple
deriving DecidableEq, Repr, Inhabited

/-- One netting-log record (the dictionaries appended to `netting_records`,
lines 207-217, 231-242 and 256-267).  `tender1` models `Tender_Type_1`
(a comma-joined string in the source, a list here, matching the
`split(',')` consumption at line 354), `memberIdxs` models the
`Netting_Members` index string, and `members` carries the member rows
themselves (recoverable in the source from the indices into the sorted
frame); `groupSum` models the `Group_Sum` field of group records. -/
structure NetRec where
  storeId : Int
  salesDate : String
  tender1 : List String
  tender2 : Option String
  value1 : Option ℚ
  value2 : Option ℚ
  combinedVariance : ℚ
  nettingType : NettingType
  memberIdxs : List Nat
  members : List Entry
  groupSum : Option ℚ
deriving DecidableEq, Repr, Inhabited

/-- Configuration of `TenderReconciliationProcessor.__init__` (lines 26-45):
the netting threshold and the (informational) approval filter mode. -/
structure Config where
  netting_off_threshold : ℚ
  approval_filter : String
deriving DecidableEq, Repr

/-- Sum of the `Store_Response_Entry` values of a list of rows
(`df['Store_Response_Entry'].sum()`). -/
def sumValues (l : List Entry) : ℚ :=
  (l.map Entry.value).sum

/-- Set one index of the used-flags array to `True`
(one step of `mark_used`, lines 189-191). -/
def mark (used : Nat → Bool) (i : Nat) : Nat → Bool :=
  fun k => if k = i then true else used k

/-- Mark a list of indices used (`mark_used`, lines 189-191). -/
def markAll (used : Nat → Bool) : List Nat → (Nat → Bool)
  | [] => used
  | i :: is => markAll (mark used i) is

/-- Pair each row with its positional index starting from `n`
(the integer positions of the frame after `reset_index(drop=True)`). -/
def enumFromE (n : Nat) : List Entry → List (Nat × Entry)
  | [] => []
  | e :: es => (n, e) :: enumFromE (n + 1) es

/-- Insert an entry into a list that is sorted by descending absolute
value, keeping it sorted. -/
def insertDesc (e : Entry) : List Entry → List Entry
  | [] => [e]
  | x :: xs => if |x.value| ≤ |e.value| then e :: x :: xs else x :: insertDesc e xs

/-- Sort rows by descending `abs_value`
(`df.sort_values('abs_value', ascending=False)`, lines 182-183). -/
def sortByAbsDesc : List Entry → List Entry
  | [] => []
  | x :: xs => insertDesc x (sortByAbsDesc xs)

/-- The inner `for j in range(i + 1, len(df))` scan of the pairwise pass
(lines 199-204) over the indexed suffix after position `i`: skip used
rows and return the first not-yet-used row `j` whose combined variance
with `vi` is below the threshold (the row itself is returned together
with its index, modelling `j` plus the `df.iloc[j]` reads). -/
def innerScanL (θ : ℚ) (used : Nat → Bool) (vi : ℚ) :
    List (Nat × Entry) → Option (Nat × Entry)
  | [] => none
  | p :: ps =>
    if used p.1 then innerScanL θ used vi ps
    else if |vi + p.2.value| < θ then some p
    else innerScanL θ used vi ps

/-- The pair record appended at lines 207-217. -/
def mkPair (p q : Nat × Entry) : NetRec :=
  { storeId := p.2.storeId
    salesDate := p.2.salesDate
    tender1 := [p.2.tenderType]
    tender2 := some q.2.tenderType
    value1 := some p.2.value
    value2 := some q.2.value
    combinedVariance := |p.2.value + q.2.value|
    nettingType :=
      if p.2.tenderType ≠ q.2.tenderType then NettingType.crossTender
      else NettingType.withinTender
    memberIdxs := [p.1, q.1]
    members := [p.2, q.2]
    groupSum := none }

/-- The outer `for i in range(len(df))` loop of the pairwise greedy pass
(lines 194-218), traversing the indexed rows in order: a used row is
skipped; otherwise the first eligible partner (if any) is found by
`innerScanL`, both rows are marked used, and one pair record is
appended to the accumulator. -/
def outerLoopL (θ : ℚ) (used : Nat → Bool) (recs : List NetRec) :
    List (Nat × Entry) → (Nat → Bool) × List NetRec
  | [] => (used, recs)
  | p :: ps =>
    if used p.1 then outerLoopL θ used recs ps
    else
      match innerScanL θ used p.2.value ps with
      | none => outerLoopL θ used recs ps
      | some q => outerLoopL θ (mark (mark used p.1) q.1) (recs ++ [mkPair p q]) ps

/-- Specification-side description of the inner scan, written from the
spec sentence: among the subsequent not-yet-used entries (given as a
list), the first one whose combined value with `v` is below the netting
threshold. -/
def findFirstPartner (θ : ℚ) (v : ℚ) : List (Nat × Entry) → Option (Nat × Entry)
  | [] => none
  | p :: ps => if |v + p.2.value| < θ then some p else findFirstPartner θ v ps

/-- Specification-side description of the whole pairwise pass, written
from the spec sentence: for each entry in descending-magnitude order,
pair it with the first subsequent not-yet-used entry within the
threshold (removing both) or let it survive, and emit one record per
pair.  Returns (surviving entries, records). -/
def greedyPairSpec (θ : ℚ) : List (Nat × Entry) → List (Nat × Entry) × List NetRec
  | [] => ([], [])
  | p :: ps =>
    match findFirstPartner θ p.2.value ps with
    | none =>
      let r := greedyPairSpec θ ps
      (p :: r.1, r.2)
    | some q =>
      let r := greedyPairSpec θ (ps.filter (fun x => decide (x.1 ≠ q.1)))
      (r.1, mkPair p q :: r.2)
termination_by l => l.length
decreasing_by
  · simp only [List.length_cons]
    exact Nat.lt_succ_of_le (Nat.le_refl _)
  · simp only [List.length_cons]
    exact Nat.lt_succ_of_le (List.length_filter_le _ _)

/-- The `(Sales_Date, Tender_Type)` grouping key of the second pass
(line 222). -/
def salesTenderKey (e : Entry) : String × String :=
  (e.salesDate, e.tenderType)

/-- A group record of the multi-entry passes (lines 231-242 and 256-267):
`Store_ID` is read from the first member (`df.iloc[idxs[0]]`), the entry
value fields are `None`, and the group sum is carried. -/
def mkGroupRec (sd : String) (ts : List String) (ty : NettingType)
    (grp : List (Nat × Entry)) : NetRec :=
  let gsum := sumValues (grp.map (fun p => p.2))
  { storeId := ((grp.headD (0, default)).2).storeId
    salesDate := sd
    tender1 := ts
    tender2 := none
    value1 := none
    value2 := none
    combinedVariance := |gsum|
    nettingType := ty
    memberIdxs := grp.map (fun p => p.1)
    members := grp.map (fun p => p.2)
    groupSum := some gsum }

/-- Generic group-netting pass shared by passes 2 and 3 (lines 220-267):
iterate over the distinct grouping keys of the snapshot of not-yet-used
rows (`df[~pd.Series(used_flags)].groupby(...)`); a group with fewer
than two members is skipped; a group whose value sum is below the
threshold is marked used, and one group record is appended.  The pandas
`groupby` iterates groups in sorted key order; the key order does not
affect which groups net (groups of distinct keys are disjoint), and the
key list is passed explicitly here. -/
def groupPassGo {κ : Type} [DecidableEq κ] (θ : ℚ) (keyOf : Entry → κ)
    (mkRec : κ → List (Nat × Entry) → NetRec) (snapshot : List (Nat × Entry)) :
    List κ → (Nat → Bool) → List NetRec → (Nat → Bool) × List NetRec
  | [], used, recs => (used, recs)
  | k :: ks, used, recs =>
    let grp := snapshot.filter (fun p => decide (keyOf p.2 = k))
    if grp.length < 2 then groupPassGo θ keyOf mkRec snapshot ks used recs
    else if |sumValues (grp.map (fun p => p.2))| < θ then
      groupPassGo θ keyOf mkRec snapshot ks (markAll used (grp.map (fun p => p.1)))
        (recs ++ [mkRec k grp])
    else groupPassGo θ keyOf mkRec snapshot ks used recs

/-- Pass 2 (lines 220-242): multi-entry netting by `(Sales_Date,
Tender_Type)` among the rows not yet used, emitting
`'Within-Tender-Multiple entries'` records. -/
def pass2 (θ : ℚ) (idx : List (Nat × Entry)) (used : Nat → Bool)
    (recs : List NetRec) : (Nat → Bool) × List NetRec :=
  let snapshot := idx.filter (fun p => !used p.1)
  groupPassGo θ salesTenderKey
    (fun k grp => mkGroupRec k.1 [k.2] NettingType.withinTenderMultiple grp)
    snapshot ((snapshot.map (fun p => salesTenderKey p.2)).dedup) used recs

/-- Pass 3 (lines 244-267): multi-entry netting by `Sales_Date` alone
among the rows still not used; the record kind is
`'Cross-Tender-Multiple entries'` when the group spans more than one
distinct tender (`grp['Tender_Type'].unique()`), else
`'Within-Tender-Multiple entries'`. -/
def pass3 (θ : ℚ) (idx : List (Nat × Entry)) (used : Nat → Bool)
    (recs : List NetRec) : (Nat → Bool) × List NetRec :=
  let snapshot := idx.filter (fun p => !used p.1)
  groupPassGo θ Entry.salesDate
    (fun k grp =>
      let ts := (grp.map (fun p => p.2.tenderType)).dedup
      mkGroupRec k ts
        (if 1 < ts.length then NettingType.crossTenderMultiple
         else NettingType.withinTenderMultiple) grp)
    snapshot ((snapshot.map (fun p => p.2.salesDate)).dedup) used recs

/-- The three netting passes of `find_and_remove_netting_items` over the
sorted frame `df` (lines 185-267), producing the final used flags and the
accumulated `netting_records`.  `hasDate` models the
`'Sales_Date' in df.columns` guards (lines 221 and 245). -/
def netting_core (θ : ℚ) (hasDate : Bool) (df : List Entry) :
    (Nat → Bool) × List NetRec :=
  let idx := enumFromE 0 df
  let s1 := outerLoopL θ (fun _ => false) [] idx
  let s2 := if hasDate then pass2 θ idx s1.1 s1.2 else s1
  if hasDate then pass3 θ idx s2.1 s2.2 else s2

/-- The not-yet-used rows surviving all three passes, before the final
`>= 100 - 1e-6` acceptance gate (`remaining_idxs`, line 273, and the rows
selected from them). -/
def preGateSurvivors (θ : ℚ) (hasDate : Bool) (df : List Entry) : List Entry :=
  ((enumFromE 0 df).filter (fun p => !(netting_core θ hasDate df).1 p.1)).map
    (fun p => p.2)

/-- `find_and_remove_netting_items` (lines 165-283).  A frame with at most
one row short-circuits: its single row is returned iff its absolute value
is at least 100, with no records (lines 174-179).  Otherwise the frame is
sorted by descending absolute value, the three passes run, and the
remaining rows are returned only when they are non-empty and their
absolute sum reaches `100 - 1e-6` (lines 273-283); the netting records
are returned in either case. -/
def find_and_remove_netting_items (θ : ℚ) (hasDate : Bool)
    (store_df : List Entry) : List Entry × List NetRec :=
  if store_df.length ≤ 1 then
    let total := |sumValues store_df|
    if 100 ≤ total then (store_df, []) else ([], [])
  else
    let df := sortByAbsDesc store_df
    let res := netting_core θ hasDate df
    let remaining := ((enumFromE 0 df).filter (fun p => !res.1 p.1)).map (fun p => p.2)
    if remaining ≠ [] ∧ 100 - 1 / 1000000 ≤ |sumValues remaining| then
      (remaining, res.2)
    else ([], res.2)

/-! ## Classifier -/

/-- The `classification_thresholds` table of `__init__` (lines 47-55); the
`float('inf')` upper bound of the last row is modelled as `none`. -/
def classification_thresholds : List (ℚ × Option ℚ × String) :=
  [ (0, some 100, "Diff less than +/- 100"),
    (100, some 1000, "Diff b/w +/- 1000"),
    (1000, some 5000, "Diff b/w +/- 5000"),
    (5000, some 10000, "Diff b/w +/- 10000"),
    (10000, some 25000, "Diff b/w +/- 25000"),
    (25000, some 50000, "Diff b/w +/- 50000"),
    (50000, none, "Diff more than +/- 50000") ]

/-- Comparison of a value with a possibly infinite upper bound
(`abs_total <= max_val`, where `max_val` may be `float('inf')`). -/
def leHi (a : ℚ) : Option ℚ → Bool
  | none => true
  | some h => decide (a ≤ h)

/-- The range scan of `classify_total_response` (lines 469-473): return the
label of the first row with `min_val <= abs_total <= max_val`, defaulting
to the top bucket. -/
def classifyGo (a : ℚ) : List (ℚ × Option ℚ × String) → String
  | [] => "Diff more than +/- 50000"
  | (lo, hi, lab) :: rest =>
    if decide (lo ≤ a) && leHi a hi then lab else classifyGo a rest

/-- `classify_total_response` (lines 465-473). -/
def classify_total_response (total : ℚ) : String :=
  classifyGo |total| classification_thresholds

/-! ## Ingestion row filter and engine entry point -/

/-- One raw data row of a tender file after numeric cleaning: `Store_ID`
and `Store_Response_Entry` are `none` when unparseable (coerced to NaN in
the source), and the approval-marker and sales-date cells are strings. -/
structure RawRow where
  storeId : Option Int
  storeResponseEntry : Option ℚ
  autoApprovedDate : String
  salesDate : String
deriving DecidableEq, Repr

/-- Whitespace stripping of a cell value (pandas `.str.strip()`,
line 149), written over the character list of the string. -/
def pyStrip (s : String) : String :=
  ⟨((s.data.dropWhile Char.isWhitespace).reverse.dropWhile
      Char.isWhitespace).reverse⟩

/-- The null-like approval markers dropped at line 150 (the empty string
is also dropped by the length check of line 151). -/
def approvalBlacklist : List String :=
  ["nan", "NaN", "NA", "NULL", "", "0", "None"]

/-- The row-filtering portion of `read_tender_file` (lines 143-154): drop
rows whose store id or response value is missing, whose response value is
zero, or whose trimmed approval marker is blacklisted or empty; tag the
survivors with the tender name.  The configuration is passed as in the
source (`self`), where the approval-filter mode is never consulted. -/
def read_tender_rows (_cfg : Config) (tender_name : String)
    (rows : List RawRow) : List Entry :=
  rows.filterMap (fun r =>
    match r.storeId, r.storeResponseEntry with
    | some sid, some v =>
      if v = 0 then none
      else
        let marker := pyStrip r.autoApprovedDate
        if marker ∈ approvalBlacklist then none
        else if marker.length = 0 then none
        else some ⟨sid, tender_name, r.salesDate, marker, v⟩
    | _, _ => none)

/-- One row of the `summary_data` table (lines 396-404 and 406-409). -/
structure SummaryRow where
  storeId : Int
  totalAutoUpdatedResponses : Nat
  exceptionalLineItems : Nat
  sumOfExceptionalResponses : ℚ
  classification : String
  errorRate : ℚ
  tenderSums : List (String × ℚ)
deriving DecidableEq, Repr, Inhabited

/-- One per-tender counter record of `self.tender_metrics`
(lines 297-303). -/
structure TenderMetric where
  total_entries : Nat
  exception_entries : Nat
  cross_tender_netting : Nat
  within_tender_netting : Nat
  total_netting_variance : ℚ
deriving DecidableEq, Repr, Inhabited

/-- One row of the tender-performance table (lines 441-448). -/
structure TenderPerfRow where
  tender : String
  totalEntries : Nat
  exceptionalEntries : Nat
  exceptionRate : ℚ
  itemsRemovedByNetting : Nat
  totalNettingVariance : ℚ
deriving DecidableEq, Repr, Inhabited

/-- The result bundle returned by `process_all_tenders` (lines 322-332 and
454-463); the per-tender exception tables are keyed by tender name. -/
structure ResultBundle where
  summary : List SummaryRow
  classification : List (String × Nat)
  exceptions : List (String × List Entry)
  netting_reference : List NetRec
  tender_performance : List TenderPerfRow
  tender_names : List String
  total_stores : Nat
  exception_stores : Nat
deriving DecidableEq, Repr, Inhabited

/-- The tenders that yielded usable entries (those for which
`read_tender_file` returned a non-empty frame, lines 290-295). -/
def processedOf (tender_files : List (String × List Entry)) :
    List (String × List Entry) :=
  tender_files.filter (fun p => !p.2.isEmpty)

/-- `combined_data` (lines 308-310): concatenation of the processed
tenders' entries in processing order. -/
def combinedOf (tender_files : List (String × List Entry)) : List Entry :=
  ((processedOf tender_files).map (fun p => p.2)).flatten

/-- The distinct store ids of the combined pool (the group keys of
`combined_data.groupby('Store_ID')`; pandas lists them in sorted order,
first-occurrence order here — the claims proved below do not depend on
the order of the group keys). -/
def storeIdsOf (combined : List Entry) : List Int :=
  (combined.map Entry.storeId).dedup

/-- The per-store net total (`store_totals`, line 316). -/
def net_total (combined : List Entry) (s : Int) : ℚ :=
  sumValues (combined.filter (fun e => decide (e.storeId = s)))

/-- `store_totals` as an association list in store-id order. -/
def store_totals (combined : List Entry) : List (Int × ℚ) :=
  (storeIdsOf combined).map (fun s => (s, net_total combined s))

/-- The candidate-exception stores (`exception_mask`/`exception_stores`,
lines 318-320): stores whose absolute net total is at least 100,
with no tolerance. -/
def candidate_stores (combined : List Entry) : List (Int × ℚ) :=
  (store_totals combined).filter (fun p => decide (100 ≤ |p.2|))

/-- The classification display order (lines 419-427). -/
def classification_order : List String :=
  [ "Diff less than +/- 100",
    "Diff b/w +/- 1000",
    "Diff b/w +/- 5000",
    "Diff b/w +/- 10000",
    "Diff b/w +/- 25000",
    "Diff b/w +/- 50000",
    "Diff more than +/- 50000" ]

/-- Update the metric record of one tender name in the accumulator
(`self.tender_metrics[tname]`); the source guards with
`if tname in self.tender_metrics`, and updating an absent key is a
no-op here. -/
def updateMetric (ms : List (String × TenderMetric)) (name : String)
    (f : TenderMetric → TenderMetric) : List (String × TenderMetric) :=
  ms.map (fun p => if p.1 = name then (p.1, f p.2) else p)

/-- The per-record metric bump of lines 353-361: every tender named in
`Tender_Type_1` gets its cross- or within-tender netting counter
incremented (the source tests `'Cross-Tender' in netting_type`, which
matches both cross kinds) and the combined variance added. -/
def bumpNetting (ms : List (String × TenderMetric)) (r : NetRec) :
    List (String × TenderMetric) :=
  r.tender1.foldl (fun ms t =>
    updateMetric ms t (fun m =>
      { m with
        cross_tender_netting :=
          if r.nettingType = NettingType.crossTender ∨
             r.nettingType = NettingType.crossTenderMultiple then
            m.cross_tender_netting + 1
          else m.cross_tender_netting
        within_tender_netting :=
          if r.nettingType = NettingType.crossTender ∨
             r.nettingType = NettingType.crossTenderMultiple then
            m.within_tender_netting
          else m.within_tender_netting + 1
        total_netting_variance := m.total_netting_variance + r.combinedVariance }))
    ms

/-- The per-store exception-entry metric bump of lines 363-372: when the
store's surviving entries pass the `>= 100 - 1e-6` gate, each processed
tender's `exception_entries` grows by its number of surviving entries. -/
def bumpExceptions (processedNames : List String)
    (ms : List (String × TenderMetric)) (exc : List Entry) :
    List (String × TenderMetric) :=
  if exc ≠ [] ∧ 100 - 1 / 1000000 ≤ |sumValues exc| then
    processedNames.foldl (fun ms t =>
      updateMetric ms t (fun m =>
        { m with exception_entries :=
            m.exception_entries +
              (exc.filter (fun e => decide (e.tenderType = t))).length }))
      ms
  else ms

/-- The rows of the combined pool belonging to one store
(`combined_data[combined_data['Store_ID'] == store_id]`, line 339). -/
def store_all (combined : List Entry) (s : Int) : List Entry :=
  combined.filter (fun e => decide (e.storeId = s))

/-- The netter's output for each candidate store, in candidate order
(the loop of lines 338-343). -/
def perStoreOf (θ : ℚ) (hasDate : Bool) (combined : List Entry)
    (candidateIds : List Int) : List (Int × (List Entry × List NetRec)) :=
  candidateIds.map (fun s =>
    (s, find_and_remove_netting_items θ hasDate (store_all combined s)))

/-- The per-store surviving sets that pass the `>= 100 - 1e-6` acceptance
gate of lines 363-365, in candidate order. -/
def acceptedExcOf (perStore : List (Int × (List Entry × List NetRec))) :
    List (List Entry) :=
  perStore.filterMap (fun p =>
    if p.2.1 ≠ [] ∧ 100 - 1 / 1000000 ≤ |sumValues p.2.1| then some p.2.1
    else none)

/-- The per-tender exception tables (`filtered_exception_data`, lines
366-381): for each processed tender, the accepted surviving entries of
that tender across candidate stores, in candidate order. -/
def exceptionsOf (processedNames : List String)
    (perStore : List (Int × (List Entry × List NetRec))) :
    List (String × List Entry) :=
  processedNames.map (fun t =>
    (t, ((acceptedExcOf perStore).map (fun exc =>
          exc.filter (fun e => decide (e.tenderType = t)))).flatten))

/-- One store's summary row, if it passes the gates of lines 390-394
(`find_and_remove_netting_items` is re-invoked for the summary, as at
line 390). -/
def summaryRowOf (θ : ℚ) (hasDate : Bool) (combined : List Entry)
    (processedNames : List String) (s : Int) : Option SummaryRow :=
  let storeAll := store_all combined s
  let exc := (find_and_remove_netting_items θ hasDate storeAll).1
  if exc.isEmpty then none
  else
    let newTotal := sumValues exc
    if 100 - 1 / 1000000 ≤ |newTotal| then
      let cnt := storeAll.length
      some { storeId := s
             totalAutoUpdatedResponses := cnt
             exceptionalLineItems := exc.length
             sumOfExceptionalResponses := newTotal
             classification := classify_total_response newTotal
             errorRate :=
               if 0 < cnt then (exc.length : ℚ) / (cnt : ℚ) * 100 else 0
             tenderSums := processedNames.map (fun t =>
               (t, sumValues (exc.filter (fun e =>
                     decide (e.tenderType = t))))) }
    else none

/-- The store-summary table (`summary_data`, lines 387-413). -/
def summaryOf (θ : ℚ) (hasDate : Bool) (combined : List Entry)
    (processedNames : List String) (candidateIds : List Int) :
    List SummaryRow :=
  candidateIds.filterMap (summaryRowOf θ hasDate combined processedNames)

/-- The classification-count table (lines 415-436): the labels that occur
in the summary, with their store counts, in severity order. -/
def classificationCountsOf (summary : List SummaryRow) : List (String × Nat) :=
  classification_order.filterMap (fun lab =>
    let c := (summary.filter (fun row => decide (row.classification = lab))).length
    if 0 < c then some (lab, c) else none)

/-- The per-tender metrics after processing all candidate stores
(lines 297-303 initialisation, lines 345-372 accumulation). -/
def metricsOf (processed : List (String × List Entry))
    (processedNames : List String)
    (perStore : List (Int × (List Entry × List NetRec))) :
    List (String × TenderMetric) :=
  let metrics0 := processed.map (fun p =>
    (p.1, ({ total_entries := p.2.length, exception_entries := 0,
             cross_tender_netting := 0, within_tender_netting := 0,
             total_netting_variance := 0 } : TenderMetric)))
  perStore.foldl (fun ms p =>
    bumpExceptions processedNames (p.2.2.foldl bumpNetting ms) p.2.1) metrics0

/-- The tender-performance table (lines 438-450). -/
def tenderPerformanceOf (processedNames : List String)
    (metrics : List (String × TenderMetric)) : List TenderPerfRow :=
  processedNames.map (fun t =>
    let m := ((metrics.filter (fun p => decide (p.1 = t))).headD (t, default)).2
    { tender := t
      totalEntries := m.total_entries
      exceptionalEntries := m.exception_entries
      exceptionRate :=
        if 0 < m.total_entries then
          (m.exception_entries : ℚ) / (m.total_entries : ℚ) * 100
        else 0
      itemsRemovedByNetting := m.cross_tender_netting + m.within_tender_netting
      totalNettingVariance := m.total_netting_variance })

/-- `process_all_tenders` (lines 285-463) on already-ingested per-tender
entry lists: aggregate the combined pool by store, gate candidate stores
at `|net_total| >= 100`, run the netter per candidate store, and
assemble the result bundle.  `hasDate` models the presence of the
`Sales_Date` column in the combined frame.  Returns `none` when no
tender yielded usable entries (lines 305-306); returns the explicitly
empty bundle of lines 322-332 when no store passes the candidate gate. -/
def process_all_tenders (cfg : Config) (hasDate : Bool)
    (tender_files : List (String × List Entry)) : Option ResultBundle :=
  let θ := cfg.netting_off_threshold
  let processed := processedOf tender_files
  if processed.isEmpty then none
  else
    let processedNames := processed.map (fun p => p.1)
    let combined := combinedOf tender_files
    let candidates := candidate_stores combined
    if candidates.isEmpty then
      some { summary := []
             classification := []
             exceptions := processedNames.map (fun t => (t, []))
             netting_reference := []
             tender_performance := []
             tender_names := processedNames
             total_stores := (store_totals combined).length
             exception_stores := 0 }
    else
      let candidateIds := candidates.map (fun p => p.1)
      let perStore := perStoreOf θ hasDate combined candidateIds
      let summary := summaryOf θ hasDate combined processedNames candidateIds
      some { summary := summary
             classification := classificationCountsOf summary
             exceptions := exceptionsOf processedNames perStore
             netting_reference := (perStore.map (fun p => p.2.2)).flatten
             tender_performance :=
               tenderPerformanceOf processedNames
                 (metricsOf processed processedNames perStore)
             tender_names := processedNames
             total_stores := (store_totals combined).length
             exception_stores := candidates.length }

/-- The engine entry point as driven by `app.py`: ingest each uploaded
table with `read_tender_rows` and hand the result to
`process_all_tenders`. -/
def run_engine (cfg : Config) (hasDate : Bool)
    (files : List (String × List RawRow)) : Option ResultBundle :=
  process_all_tenders cfg hasDate
    (files.map (fun p => (p.1, read_tender_rows cfg p.1 p.2)))

/-! ## Basic lemmas on the building blocks -/

/-- Indexed row lists with pairwise distinct indices. -/
def NoDupIdx (l : List (Nat × Entry)) : Prop :=
  List.Pairwise (fun a b => a.1 ≠ b.1) l

theorem le_fst_of_mem_enumFromE {n : Nat} {l : List Entry} {p : Nat × Entry}
    (h : p ∈ enumFromE n l) : n ≤ p.1 := by
  induction l generalizing n with
  | nil => simp [enumFromE] at h
  | cons e es ih =>
    simp only [enumFromE, List.mem_cons] at h
    rcases h with h | h
    · simp [h]
    · exact Nat.le_of_succ_le (ih h)

theorem nodupIdx_enumFromE (n : Nat) (l : List Entry) :
    NoDupIdx (enumFromE n l) := by
  induction l generalizing n with
  | nil => exact List.Pairwise.nil
  | cons e es ih =>
    refine List.Pairwise.cons (fun q hq => ?_) (ih (n + 1))
    have := le_fst_of_mem_enumFromE hq
    omega

theorem map_snd_enumFromE (n : Nat) (l : List Entry) :
    (enumFromE n l).map (fun p => p.2) = l := by
  induction l generalizing n with
  | nil => rfl
  | cons e es ih => simp [enumFromE, ih]

theorem snd_mem_of_mem_enumFromE {n : Nat} {l : List Entry} {p : Nat × Entry}
    (h : p ∈ enumFromE n l) : p.2 ∈ l := by
  have := List.mem_map_of_mem (fun q => q.2) h
  rwa [map_snd_enumFromE] at this

theorem mark_apply_ne (used : Nat → Bool) {i k : Nat} (h : k ≠ i) :
    mark used i k = used k := by
  simp [mark, h]

theorem mark_apply_self (used : Nat → Bool) (i : Nat) :
    mark used i i = true := by
  simp [mark]

theorem mark_mono {used : Nat → Bool} {i k : Nat} (h : used k = true) :
    mark used i k = true := by
  by_cases hk : k = i
  · subst hk; exact mark_apply_self used k
  · rwa [mark_apply_ne used hk]

theorem markAll_mono {is : List Nat} {used : Nat → Bool} {k : Nat}
    (h : used k = true) : markAll used is k = true := by
  induction is generalizing used with
  | nil => exact h
  | cons i is ih => exact ih (mark_mono h)

theorem markAll_apply_of_mem {is : List Nat} {used : Nat → Bool} {k : Nat}
    (h : k ∈ is) : markAll used is k = true := by
  induction is generalizing used with
  | nil => simp at h
  | cons i is ih =>
    rcases List.mem_cons.1 h with h | h
    · subst h; rw [markAll]; exact markAll_mono (mark_apply_self used k)
    · exact ih h

theorem markAll_apply_of_not_mem {is : List Nat} {used : Nat → Bool} {k : Nat}
    (h : k ∉ is) : markAll used is k = used k := by
  induction is generalizing used with
  | nil => rfl
  | cons i is ih =>
    have hk : k ≠ i := fun he => h (he ▸ List.mem_cons_self i is)
    rw [markAll, ih (fun hm => h (List.mem_cons_of_mem i hm)), mark_apply_ne used hk]

theorem sumValues_append (l₁ l₂ : List Entry) :
    sumValues (l₁ ++ l₂) = sumValues l₁ + sumValues l₂ := by
  simp [sumValues]

theorem sumValues_cons (e : Entry) (l : List Entry) :
    sumValues (e :: l) = e.value + sumValues l := by
  simp [sumValues]

/-! ## Sorting lemmas -/

/-- Descending-absolute-value order on entries. -/
def absDescRel (a b : Entry) : Prop := |b.value| ≤ |a.value|

theorem mem_insertDesc {e b : Entry} {l : List Entry} :
    b ∈ insertDesc e l ↔ b = e ∨ b ∈ l := by
  induction l with
  | nil => simp [insertDesc]
  | cons x xs ih =>
    by_cases h : |x.value| ≤ |e.value|
    · rw [insertDesc, if_pos h]
      simp
    · rw [insertDesc, if_neg h]
      simp [ih]
      tauto

theorem sorted_insertDesc {e : Entry} {l : List Entry}
    (hl : List.Sorted absDescRel l) :
    List.Sorted absDescRel (insertDesc e l) := by
  induction l with
  | nil => simp [insertDesc, List.sorted_singleton]
  | cons x xs ih =>
    rw [List.sorted_cons] at hl
    by_cases h : |x.value| ≤ |e.value|
    · rw [insertDesc, if_pos h, List.sorted_cons]
      refine ⟨fun b hb => ?_, List.sorted_cons.2 hl⟩
      rcases List.mem_cons.1 hb with hb | hb
      · subst hb; exact h
      · exact le_trans (hl.1 b hb) h
    · rw [insertDesc, if_neg h, List.sorted_cons]
      refine ⟨fun b hb => ?_, ih hl.2⟩
      rcases mem_insertDesc.1 hb with hb | hb
      · subst hb; exact le_of_not_le h
      · exact hl.1 b hb

theorem sorted_sortByAbsDesc (l : List Entry) :
    List.Sorted absDescRel (sortByAbsDesc l) := by
  induction l with
  | nil => simp [sortByAbsDesc]
  | cons x xs ih => exact sorted_insertDesc ih

theorem mem_sortByAbsDesc {b : Entry} {l : List Entry} :
    b ∈ sortByAbsDesc l ↔ b ∈ l := by
  induction l with
  | nil => simp [sortByAbsDesc]
  | cons x xs ih => simp [sortByAbsDesc, mem_insertDesc, ih]

theorem sumValues_insertDesc (e : Entry) (l : List Entry) :
    sumValues (insertDesc e l) = e.value + sumValues l := by
  induction l with
  | nil => simp [insertDesc, sumValues]
  | cons x xs ih =>
    by_cases h : |x.value| ≤ |e.value|
    · rw [insertDesc, if_pos h, sumValues_cons]
    · rw [insertDesc, if_neg h, sumValues_cons, ih, sumValues_cons]
      ring

theorem sumValues_sortByAbsDesc (l : List Entry) :
    sumValues (sortByAbsDesc l) = sumValues l := by
  induction l with
  | nil => rfl
  | cons x xs ih =>
    rw [sortByAbsDesc, sumValues_insertDesc, ih, sumValues_cons]

/-! ## The pairwise greedy pass matches its specification -/

theorem innerScanL_eq_findFirstPartner (θ : ℚ) (used : Nat → Bool) (v : ℚ)
    (ps : List (Nat × Entry)) :
    innerScanL θ used v ps =
      findFirstPartner θ v (ps.filter (fun p => !used p.1)) := by
  induction ps with
  | nil => rfl
  | cons p ps ih =>
    by_cases hu : used p.1
    · rw [innerScanL, if_pos hu, ih, List.filter_cons]
      simp [hu]
    · rw [innerScanL, if_neg hu, List.filter_cons]
      simp only [hu, Bool.not_false, if_pos]
      by_cases hc : |v + p.2.value| < θ
      · rw [if_pos hc, findFirstPartner, if_pos hc]
      · rw [if_neg hc, findFirstPartner, if_neg hc, ih]

theorem innerScanL_some {θ : ℚ} {used : Nat → Bool} {v : ℚ}
    {ps : List (Nat × Entry)} {q : Nat × Entry}
    (h : innerScanL θ used v ps = some q) :
    q ∈ ps ∧ used q.1 = false ∧ |v + q.2.value| < θ := by
  induction ps with
  | nil => simp [innerScanL] at h
  | cons p ps ih =>
    by_cases hu : used p.1
    · rw [innerScanL, if_pos hu] at h
      have := ih h
      exact ⟨List.mem_cons_of_mem p this.1, this.2⟩
    · rw [innerScanL, if_neg hu] at h
      by_cases hc : |v + p.2.value| < θ
      · rw [if_pos hc] at h
        cases h
        exact ⟨List.mem_cons_self _ _, by simp at hu; exact hu, hc⟩
      · rw [if_neg hc] at h
        have := ih h
        exact ⟨List.mem_cons_of_mem p this.1, this.2⟩

theorem filter_not_mark_of_not_idx {ps : List (Nat × Entry)}
    {used : Nat → Bool} {i : Nat} (h : ∀ p ∈ ps, p.1 ≠ i) :
    ps.filter (fun p => !(mark used i) p.1) = ps.filter (fun p => !used p.1) := by
  apply List.filter_congr
  intro p hp
  rw [mark_apply_ne used (h p hp)]

theorem filter_not_mark (ps : List (Nat × Entry)) (used : Nat → Bool)
    (j : Nat) :
    ps.filter (fun p => !(mark used j) p.1) =
      (ps.filter (fun p => !used p.1)).filter (fun p => decide (p.1 ≠ j)) := by
  rw [List.filter_filter]
  apply List.filter_congr
  intro p _
  by_cases hj : p.1 = j
  · simp [mark, hj]
  · simp [mark, hj]

/-- The outer loop of the pairwise pass, run from any used-flag state,
produces exactly the records of the greedy specification on the
not-yet-used rows, marks exactly the rows that the specification
removes, and leaves all other flags unchanged. -/
theorem outerLoopL_spec (θ : ℚ) :
    ∀ (l : List (Nat × Entry)) (used : Nat → Bool) (recs : List NetRec),
      NoDupIdx l →
      (outerLoopL θ used recs l).2 =
          recs ++ (greedyPairSpec θ (l.filter (fun p => !used p.1))).2
      ∧ l.filter (fun p => !(outerLoopL θ used recs l).1 p.1) =
          (greedyPairSpec θ (l.filter (fun p => !used p.1))).1
      ∧ ∀ k, (∀ p ∈ l, p.1 ≠ k) → (outerLoopL θ used recs l).1 k = used k := by
  intro l
  induction l with
  | nil =>
    intro used recs _
    refine ⟨by simp [outerLoopL, greedyPairSpec], by simp [greedyPairSpec], ?_⟩
    intro k _
    rfl
  | cons p ps ih =>
    intro used recs hnd
    have hnd' : NoDupIdx ps := (List.pairwise_cons.1 hnd).2
    have hp : ∀ b ∈ ps, p.1 ≠ b.1 := (List.pairwise_cons.1 hnd).1
    by_cases hu : used p.1
    · rw [outerLoopL, if_pos hu]
      obtain ⟨ih1, ih2, ih3⟩ := ih used recs hnd'
      have hf : (p :: ps).filter (fun q => !used q.1) =
          ps.filter (fun q => !used q.1) := by
        rw [List.filter_cons]
        simp [hu]
      have hFp : (outerLoopL θ used recs ps).1 p.1 = used p.1 :=
        ih3 p.1 (fun q hq => (hp q hq).symm)
      refine ⟨by rw [hf]; exact ih1, ?_, ?_⟩
      · rw [hf, List.filter_cons, if_neg (by simp [hFp, hu]), ih2]
      · intro k hk
        exact ih3 k (fun q hq => hk q (List.mem_cons_of_mem p hq))
    · rw [outerLoopL, if_neg hu]
      have hf : (p :: ps).filter (fun q => !used q.1) =
          p :: ps.filter (fun q => !used q.1) := by
        rw [List.filter_cons]
        simp [hu]
      cases hscan : innerScanL θ used p.2.value ps with
      | none =>
        obtain ⟨ih1, ih2, ih3⟩ := ih used recs hnd'
        have hff : findFirstPartner θ p.2.value
            (ps.filter (fun q => !used q.1)) = none := by
          rw [← innerScanL_eq_findFirstPartner]
          exact hscan
        have hspec : greedyPairSpec θ ((p :: ps).filter (fun q => !used q.1)) =
            (p :: (greedyPairSpec θ (ps.filter (fun q => !used q.1))).1,
             (greedyPairSpec θ (ps.filter (fun q => !used q.1))).2) := by
          rw [hf, greedyPairSpec, hff]
        have hFp : (outerLoopL θ used recs ps).1 p.1 = used p.1 :=
          ih3 p.1 (fun q hq => (hp q hq).symm)
        refine ⟨?_, ?_, ?_⟩
        · rw [hspec]
          exact ih1
        · rw [hspec, List.filter_cons, if_pos (by simp [hFp, hu])]
          rw [ih2]
        · intro k hk
          exact ih3 k (fun q hq => hk q (List.mem_cons_of_mem p hq))
      | some q =>
        obtain ⟨hqmem, hqused, hqvar⟩ := innerScanL_some hscan
        have hpq : p.1 ≠ q.1 := hp q hqmem
        obtain ⟨ih1, ih2, ih3⟩ :=
          ih (mark (mark used p.1) q.1) (recs ++ [mkPair p q]) hnd'
        have hff : findFirstPartner θ p.2.value
            (ps.filter (fun r => !used r.1)) = some q := by
          rw [← innerScanL_eq_findFirstPartner]
          exact hscan
        have hspec : greedyPairSpec θ ((p :: ps).filter (fun r => !used r.1)) =
            ((greedyPairSpec θ ((ps.filter (fun r => !used r.1)).filter
                (fun x => decide (x.1 ≠ q.1)))).1,
             mkPair p q ::
               (greedyPairSpec θ ((ps.filter (fun r => !used r.1)).filter
                 (fun x => decide (x.1 ≠ q.1)))).2) := by
          rw [hf, greedyPairSpec, hff]
        have hmarks : ps.filter (fun r => !(mark (mark used p.1) q.1) r.1) =
            (ps.filter (fun r => !used r.1)).filter
              (fun x => decide (x.1 ≠ q.1)) := by
          rw [filter_not_mark,
            filter_not_mark_of_not_idx (fun r hr => (hp r hr).symm)]
        refine ⟨?_, ?_, ?_⟩
        · rw [hspec, ih1, hmarks, List.append_assoc, List.singleton_append]
        · have hFp : (outerLoopL θ (mark (mark used p.1) q.1)
              (recs ++ [mkPair p q]) ps).1 p.1 = mark (mark used p.1) q.1 p.1 :=
            ih3 p.1 (fun r hr => (hp r hr).symm)
          have hmt : mark (mark used p.1) q.1 p.1 = true := by
            rw [mark_apply_ne _ hpq]
            exact mark_apply_self used p.1
          rw [hspec, List.filter_cons, if_neg (by simp [hFp, hmt]), ih2, hmarks]
        · intro k hk
          have hqk : q.1 ≠ k := hk q (List.mem_cons_of_mem p hqmem)
          have hpk : p.1 ≠ k := hk p (List.mem_cons_self p ps)
          rw [ih3 k (fun r hr => hk r (List.mem_cons_of_mem p hr)),
            mark_apply_ne _ (Ne.symm hqk), mark_apply_ne _ (Ne.symm hpk)]

/-! ## Record accumulation: every emitted record satisfies the
emission-time guard of its pass -/

theorem idx_inj {l : List (Nat × Entry)} {p q : Nat × Entry}
    (hnd : NoDupIdx l) (hp : p ∈ l) (hq : q ∈ l) (h : p.1 = q.1) : p = q := by
  induction l with
  | nil => simp at hp
  | cons x xs ih =>
    obtain ⟨hx, hnd'⟩ := List.pairwise_cons.1 hnd
    rcases List.mem_cons.1 hp with hp1 | hp1 <;>
      rcases List.mem_cons.1 hq with hq1 | hq1
    · rw [hp1, hq1]
    · subst hp1
      exact absurd h (hx q hq1)
    · subst hq1
      exact absurd h.symm (hx p hp1)
    · exact ih hnd' hp1 hq1

theorem outerLoopL_recs (θ : ℚ) (P : NetRec → Prop) :
    ∀ (l : List (Nat × Entry)) (used : Nat → Bool) (recs : List NetRec),
      (∀ r ∈ recs, P r) →
      (∀ p q : Nat × Entry, p ∈ l → q ∈ l →
        |p.2.value + q.2.value| < θ → P (mkPair p q)) →
      ∀ r ∈ (outerLoopL θ used recs l).2, P r := by
  intro l
  induction l with
  | nil =>
    intro used recs h0 _ r hr
    exact h0 r hr
  | cons p ps ih =>
    intro used recs h0 hstep r hr
    have hstep' : ∀ a b : Nat × Entry, a ∈ ps → b ∈ ps →
        |a.2.value + b.2.value| < θ → P (mkPair a b) :=
      fun a b ha hb => hstep a b (List.mem_cons_of_mem p ha)
        (List.mem_cons_of_mem p hb)
    by_cases hu : used p.1
    · rw [outerLoopL, if_pos hu] at hr
      exact ih used recs h0 hstep' r hr
    · rw [outerLoopL, if_neg hu] at hr
      cases hscan : innerScanL θ used p.2.value ps with
      | none =>
        rw [hscan] at hr
        exact ih used recs h0 hstep' r hr
      | some q =>
        rw [hscan] at hr
        obtain ⟨hqmem, _, hqvar⟩ := innerScanL_some hscan
        have h0' : ∀ r ∈ recs ++ [mkPair p q], P r := by
          intro r hr
          rcases List.mem_append.1 hr with hr | hr
          · exact h0 r hr
          · rcases List.mem_singleton.1 hr with rfl
            exact hstep p q (List.mem_cons_self p ps)
              (List.mem_cons_of_mem p hqmem) hqvar
        exact ih _ _ h0' hstep' r hr

theorem groupPassGo_recs {κ : Type} [DecidableEq κ] (θ : ℚ) (keyOf : Entry → κ)
    (mkRec : κ → List (Nat × Entry) → NetRec) (snapshot : List (Nat × Entry))
    (P : NetRec → Prop) :
    ∀ (keys : List κ) (used : Nat → Bool) (recs : List NetRec),
      (∀ r ∈ recs, P r) →
      (∀ (k : κ) (grp : List (Nat × Entry)),
        grp = snapshot.filter (fun p => decide (keyOf p.2 = k)) →
        ¬grp.length < 2 →
        |sumValues (grp.map (fun p => p.2))| < θ → P (mkRec k grp)) →
      ∀ r ∈ (groupPassGo θ keyOf mkRec snapshot keys used recs).2, P r := by
  intro keys
  induction keys with
  | nil =>
    intro used recs h0 _ r hr
    exact h0 r hr
  | cons k ks ih =>
    intro used recs h0 hstep r hr
    rw [groupPassGo] at hr
    by_cases hlen :
        (snapshot.filter (fun p => decide (keyOf p.2 = k))).length < 2
    · rw [if_pos hlen] at hr
      exact ih used recs h0 hstep r hr
    · rw [if_neg hlen] at hr
      by_cases hsum : |sumValues ((snapshot.filter
          (fun p => decide (keyOf p.2 = k))).map (fun p => p.2))| < θ
      · rw [if_pos hsum] at hr
        have h0' : ∀ r ∈ recs ++
            [mkRec k (snapshot.filter (fun p => decide (keyOf p.2 = k)))], P r := by
          intro r hr
          rcases List.mem_append.1 hr with hr | hr
          · exact h0 r hr
          · rcases List.mem_singleton.1 hr with rfl
            exact hstep k _ rfl hlen hsum
        exact ih _ _ h0' hstep r hr
      · rw [if_neg hsum] at hr
        exact ih used recs h0 hstep r hr

/-- Every record produced by the three passes satisfies any property that
holds of pair records built from rows of `df` whose combined variance is
below the threshold, and of group records over non-empty row groups of
`df` whose sum is below the threshold. -/
theorem netting_core_recs (θ : ℚ) (hasDate : Bool) (df : List Entry)
    (P : NetRec → Prop)
    (hpair : ∀ p q : Nat × Entry, p.2 ∈ df → q.2 ∈ df →
      |p.2.value + q.2.value| < θ → P (mkPair p q))
    (hgrp : ∀ (sd : String) (ts : List String) (ty : NettingType)
      (grp : List (Nat × Entry)), grp ≠ [] → (∀ p ∈ grp, p.2 ∈ df) →
      |sumValues (grp.map (fun p => p.2))| < θ → P (mkGroupRec sd ts ty grp)) :
    ∀ r ∈ (netting_core θ hasDate df).2, P r := by
  intro r hr
  have hidx : ∀ p : Nat × Entry, p ∈ enumFromE 0 df → p.2 ∈ df :=
    fun p hp => snd_mem_of_mem_enumFromE hp
  have hpair' : ∀ p q : Nat × Entry, p ∈ enumFromE 0 df → q ∈ enumFromE 0 df →
      |p.2.value + q.2.value| < θ → P (mkPair p q) :=
    fun p q hp hq => hpair p q (hidx p hp) (hidx q hq)
  have h1 : ∀ r ∈ (outerLoopL θ (fun _ => false) [] (enumFromE 0 df)).2, P r :=
    outerLoopL_recs θ P (enumFromE 0 df) _ [] (by simp) hpair'
  have hp2 : ∀ (used : Nat → Bool) (recs : List NetRec),
      (∀ r ∈ recs, P r) → ∀ r ∈ (pass2 θ (enumFromE 0 df) used recs).2, P r := by
    intro used recs h0 r hr
    simp only [pass2] at hr
    refine groupPassGo_recs θ salesTenderKey _ _ P _ used recs h0 ?_ r hr
    intro k grp hgrpEq hlen hsum
    refine hgrp k.1 [k.2] NettingType.withinTenderMultiple grp ?_ ?_ hsum
    · intro he
      rw [he] at hlen
      simp at hlen
    · intro p hp
      rw [hgrpEq] at hp
      have hp1 := List.mem_of_mem_filter hp
      have hp2 := List.mem_of_mem_filter hp1
      exact hidx p hp2
  have hp3 : ∀ (used : Nat → Bool) (recs : List NetRec),
      (∀ r ∈ recs, P r) → ∀ r ∈ (pass3 θ (enumFromE 0 df) used recs).2, P r := by
    intro used recs h0 r hr
    simp only [pass3] at hr
    refine groupPassGo_recs θ Entry.salesDate _ _ P _ used recs h0 ?_ r hr
    intro k grp hgrpEq hlen hsum
    refine hgrp k ((grp.map (fun p => p.2.tenderType)).dedup) _ grp ?_ ?_ hsum
    · intro he
      rw [he] at hlen
      simp at hlen
    · intro p hp
      rw [hgrpEq] at hp
      have hp1 := List.mem_of_mem_filter hp
      have hp2 := List.mem_of_mem_filter hp1
      exact hidx p hp2
  by_cases hd : hasDate
  · simp only [netting_core, hd, if_true] at hr
    exact hp3 _ _ (hp2 _ _ h1) r hr
  · simp only [netting_core, hd, if_false] at hr
    exact h1 r hr

/-! ## Conservation: the passes move value from the unused rows into the
emitted records -/

/-- Sum of the values of the rows of `l` not yet marked used. -/
def sumU (l : List (Nat × Entry)) (u : Nat → Bool) : ℚ :=
  sumValues ((l.filter (fun p => !u p.1)).map (fun p => p.2))

/-- Total value carried by the members of a list of records. -/
def recsMemberSum (recs : List NetRec) : ℚ :=
  (recs.map (fun r => sumValues r.members)).sum

theorem recsMemberSum_append (r₁ r₂ : List NetRec) :
    recsMemberSum (r₁ ++ r₂) = recsMemberSum r₁ + recsMemberSum r₂ := by
  simp [recsMemberSum]

theorem sumU_cons (p : Nat × Entry) (l : List (Nat × Entry)) (u : Nat → Bool) :
    sumU (p :: l) u = (if u p.1 then 0 else p.2.value) + sumU l u := by
  by_cases hu : u p.1
  · simp [sumU, List.filter_cons, hu]
  · simp [sumU, List.filter_cons, hu, sumValues]

theorem sumU_of_not_idx {l : List (Nat × Entry)} {u : Nat → Bool} {i : Nat}
    (h : ∀ p ∈ l, p.1 ≠ i) : sumU l (mark u i) = sumU l u := by
  induction l with
  | nil => rfl
  | cons p ps ih =>
    have hpi : p.1 ≠ i := h p (List.mem_cons_self p ps)
    rw [sumU_cons, sumU_cons, mark_apply_ne u hpi,
      ih (fun q hq => h q (List.mem_cons_of_mem p hq))]

theorem sumU_mark {l : List (Nat × Entry)} {u : Nat → Bool} {q : Nat × Entry}
    (hnd : NoDupIdx l) (hq : q ∈ l) (hu : u q.1 = false) :
    sumU l (mark u q.1) = sumU l u - q.2.value := by
  induction l with
  | nil => simp at hq
  | cons p ps ih =>
    obtain ⟨hx, hnd'⟩ := List.pairwise_cons.1 hnd
    rcases List.mem_cons.1 hq with hq1 | hq1
    · subst hq1
      rw [sumU_cons, sumU_cons, mark_apply_self, hu,
        sumU_of_not_idx (fun r hr => (hx r hr).symm)]
      simp
    · have hpq : p.1 ≠ q.1 := hx q hq1
      rw [sumU_cons, sumU_cons, mark_apply_ne u hpq, ih hnd' hq1]
      ring

theorem sumU_markAll {L : List (Nat × Entry)} (hnd : NoDupIdx L) :
    ∀ (grp : List (Nat × Entry)) (u : Nat → Bool), NoDupIdx grp →
      (∀ p ∈ grp, p ∈ L) → (∀ p ∈ grp, u p.1 = false) →
      sumU L (markAll u (grp.map (fun p => p.1))) =
        sumU L u - sumValues (grp.map (fun p => p.2)) := by
  intro grp
  induction grp with
  | nil =>
    intro u _ _ _
    simp [markAll, sumValues]
  | cons g gs ih =>
    intro u hgnd hgL hgu
    obtain ⟨hgx, hgnd'⟩ := List.pairwise_cons.1 hgnd
    have step : sumU L (mark u g.1) = sumU L u - g.2.value :=
      sumU_mark hnd (hgL g (List.mem_cons_self g gs))
        (hgu g (List.mem_cons_self g gs))
    have hrest : ∀ p ∈ gs, (mark u g.1) p.1 = false := by
      intro p hp
      rw [mark_apply_ne u (Ne.symm (hgx p hp))]
      exact hgu p (List.mem_cons_of_mem g hp)
    have := ih (mark u g.1) hgnd'
      (fun p hp => hgL p (List.mem_cons_of_mem g hp)) hrest
    rw [List.map_cons, markAll, this, step, List.map_cons, sumValues_cons]
    ring

theorem outerLoopL_conserve (θ : ℚ) (L : List (Nat × Entry))
    (hndL : NoDupIdx L) :
    ∀ (l : List (Nat × Entry)) (used : Nat → Bool) (recs : List NetRec),
      NoDupIdx l → (∀ p ∈ l, p ∈ L) →
      sumU L (outerLoopL θ used recs l).1 +
          recsMemberSum (outerLoopL θ used recs l).2 =
        sumU L used + recsMemberSum recs := by
  intro l
  induction l with
  | nil =>
    intro used recs _ _
    rfl
  | cons p ps ih =>
    intro used recs hnd hsub
    have hnd' : NoDupIdx ps := (List.pairwise_cons.1 hnd).2
    have hp : ∀ b ∈ ps, p.1 ≠ b.1 := (List.pairwise_cons.1 hnd).1
    have hsub' : ∀ b ∈ ps, b ∈ L := fun b hb => hsub b (List.mem_cons_of_mem p hb)
    by_cases hu : used p.1
    · rw [outerLoopL, if_pos hu]
      exact ih used recs hnd' hsub'
    · rw [outerLoopL, if_neg hu]
      cases hscan : innerScanL θ used p.2.value ps with
      | none => exact ih used recs hnd' hsub'
      | some q =>
        obtain ⟨hqmem, hqused, _⟩ := innerScanL_some hscan
        have hpq : p.1 ≠ q.1 := hp q hqmem
        have s1 : sumU L (mark used p.1) = sumU L used - p.2.value :=
          sumU_mark hndL (hsub p (List.mem_cons_self p ps)) (by simpa using hu)
        have s2 : sumU L (mark (mark used p.1) q.1) =
            sumU L (mark used p.1) - q.2.value :=
          sumU_mark hndL (hsub' q hqmem)
            (by rw [mark_apply_ne used (Ne.symm hpq)]; exact hqused)
        have hrs : recsMemberSum (recs ++ [mkPair p q]) =
            recsMemberSum recs + (p.2.value + q.2.value) := by
          simp [recsMemberSum_append, recsMemberSum, mkPair, sumValues]
        rw [ih (mark (mark used p.1) q.1) (recs ++ [mkPair p q]) hnd' hsub',
          s2, s1, hrs]
        ring

theorem groupPassGo_conserve {κ : Type} [DecidableEq κ] (θ : ℚ)
    (keyOf : Entry → κ) (mkRec : κ → List (Nat × Entry) → NetRec)
    (snapshot L : List (Nat × Entry)) (hndL : NoDupIdx L)
    (hndS : NoDupIdx snapshot) (hsub : ∀ p ∈ snapshot, p ∈ L)
    (hmk : ∀ k grp, (mkRec k grp).members = grp.map (fun p => p.2)) :
    ∀ (keys : List κ) (used : Nat → Bool) (recs : List NetRec),
      keys.Nodup →
      (∀ k ∈ keys, ∀ p ∈ snapshot, keyOf p.2 = k → used p.1 = false) →
      sumU L (groupPassGo θ keyOf mkRec snapshot keys used recs).1 +
          recsMemberSum (groupPassGo θ keyOf mkRec snapshot keys used recs).2 =
        sumU L used + recsMemberSum recs := by
  intro keys
  induction keys with
  | nil =>
    intro used recs _ _
    rfl
  | cons k ks ih =>
    intro used recs hknd hfresh
    have hknd' : ks.Nodup := (List.nodup_cons.1 hknd).2
    have hkk : k ∉ ks := (List.nodup_cons.1 hknd).1
    rw [groupPassGo]
    set grp := snapshot.filter (fun p => decide (keyOf p.2 = k)) with hgrp
    by_cases hlen : grp.length < 2
    · rw [if_pos hlen]
      exact ih used recs hknd'
        (fun k' hk' p hp hkey => hfresh k' (List.mem_cons_of_mem k hk') p hp hkey)
    · rw [if_neg hlen]
      by_cases hsum : |sumValues (grp.map (fun p => p.2))| < θ
      · rw [if_pos hsum]
        have hgnd : NoDupIdx grp := List.Pairwise.sublist (List.filter_sublist _) hndS
        have hgL : ∀ p ∈ grp, p ∈ L := fun p hp =>
          hsub p (List.mem_of_mem_filter hp)
        have hgu : ∀ p ∈ grp, used p.1 = false := by
          intro p hp
          refine hfresh k (List.mem_cons_self k ks) p (List.mem_of_mem_filter hp) ?_
          have := List.of_mem_filter hp
          simpa using this
        have hmark : sumU L (markAll used (grp.map (fun p => p.1))) =
            sumU L used - sumValues (grp.map (fun p => p.2)) :=
          sumU_markAll hndL grp used hgnd hgL hgu
        have hfresh' : ∀ k' ∈ ks, ∀ p ∈ snapshot, keyOf p.2 = k' →
            (markAll used (grp.map (fun p => p.1))) p.1 = false := by
          intro k' hk' p hp hkey
          have hnotin : p.1 ∉ grp.map (fun p => p.1) := by
            intro hin
            obtain ⟨g, hg, hgeq⟩ := List.mem_map.1 hin
            have : g = p := idx_inj hndS (List.mem_of_mem_filter hg) hp hgeq
            subst this
            have := List.of_mem_filter hg
            simp only [decide_eq_true_eq] at this
            rw [hkey] at this
            exact hkk (this ▸ hk')
          rw [markAll_apply_of_not_mem hnotin]
          exact hfresh k' (List.mem_cons_of_mem k hk') p hp hkey
        have hrs : recsMemberSum (recs ++ [mkRec k grp]) =
            recsMemberSum recs + sumValues (grp.map (fun p => p.2)) := by
          rw [recsMemberSum_append]
          simp [recsMemberSum, hmk]
        rw [ih (markAll used (grp.map (fun p => p.1))) (recs ++ [mkRec k grp])
          hknd' hfresh', hmark, hrs]
        ring
      · rw [if_neg hsum]
        exact ih used recs hknd'
          (fun k' hk' p hp hkey => hfresh k' (List.mem_cons_of_mem k hk') p hp hkey)

theorem sumU_all_unused (df : List Entry) :
    sumU (enumFromE 0 df) (fun _ => false) = sumValues df := by
  have : (enumFromE 0 df).filter (fun p => !(fun _ => false) p.1) =
      enumFromE 0 df := by
    apply List.filter_eq_self.2
    intro p _
    rfl
  rw [sumU, this, map_snd_enumFromE]

theorem pass2_conserve (θ : ℚ) (df : List Entry) (used : Nat → Bool)
    (recs : List NetRec) :
    sumU (enumFromE 0 df) (pass2 θ (enumFromE 0 df) used recs).1 +
        recsMemberSum (pass2 θ (enumFromE 0 df) used recs).2 =
      sumU (enumFromE 0 df) used + recsMemberSum recs := by
  have hnd := nodupIdx_enumFromE 0 df
  apply groupPassGo_conserve θ salesTenderKey _ _ _ hnd
    (List.Pairwise.sublist (List.filter_sublist _) hnd)
    (fun p hp => List.mem_of_mem_filter hp)
    (fun k grp => rfl) _ used recs (List.nodup_dedup _)
  intro k _ p hp _
  have := List.of_mem_filter hp
  simpa using this

theorem pass3_conserve (θ : ℚ) (df : List Entry) (used : Nat → Bool)
    (recs : List NetRec) :
    sumU (enumFromE 0 df) (pass3 θ (enumFromE 0 df) used recs).1 +
        recsMemberSum (pass3 θ (enumFromE 0 df) used recs).2 =
      sumU (enumFromE 0 df) used + recsMemberSum recs := by
  have hnd := nodupIdx_enumFromE 0 df
  apply groupPassGo_conserve θ Entry.salesDate _ _ _ hnd
    (List.Pairwise.sublist (List.filter_sublist _) hnd)
    (fun p hp => List.mem_of_mem_filter hp)
    (fun k grp => rfl) _ used recs (List.nodup_dedup _)
  intro k _ p hp _
  have := List.of_mem_filter hp
  simpa using this

/-- Conservation across all three passes: the value held by the
still-unused rows plus the value held by the emitted records' members is
the total value of the frame. -/
theorem netting_core_conserve (θ : ℚ) (hasDate : Bool) (df : List Entry) :
    sumU (enumFromE 0 df) (netting_core θ hasDate df).1 +
        recsMemberSum (netting_core θ hasDate df).2 = sumValues df := by
  have hnd := nodupIdx_enumFromE 0 df
  have h1 := outerLoopL_conserve θ (enumFromE 0 df) hnd (enumFromE 0 df)
    (fun _ => false) [] hnd (fun p hp => hp)
  rw [sumU_all_unused] at h1
  by_cases hd : hasDate
  · simp only [netting_core, hd, if_true]
    rw [pass3_conserve, pass2_conserve]
    simpa [recsMemberSum] using h1
  · simp only [netting_core, hd, if_false]
    simpa [recsMemberSum] using h1

/-! ## Degenerate inputs leave the flags and records untouched -/

theorem outerLoopL_short (θ : ℚ) (used : Nat → Bool) (recs : List NetRec)
    (l : List (Nat × Entry)) (h : l.length ≤ 1) :
    outerLoopL θ used recs l = (used, recs) := by
  match l with
  | [] => rfl
  | [p] =>
    rw [outerLoopL]
    by_cases hu : used p.1
    · rw [if_pos hu, outerLoopL]
    · rw [if_neg hu]
      show outerLoopL θ used recs [] = (used, recs)
      rfl
  | p :: q :: ps => simp at h

theorem groupPassGo_short {κ : Type} [DecidableEq κ] (θ : ℚ)
    (keyOf : Entry → κ) (mkRec : κ → List (Nat × Entry) → NetRec)
    (snapshot : List (Nat × Entry)) (hs : snapshot.length ≤ 1) :
    ∀ (keys : List κ) (used : Nat → Bool) (recs : List NetRec),
      groupPassGo θ keyOf mkRec snapshot keys used recs = (used, recs) := by
  intro keys
  induction keys with
  | nil =>
    intro used recs
    rfl
  | cons k ks ih =>
    intro used recs
    rw [groupPassGo, if_pos]
    · exact ih used recs
    · calc (snapshot.filter (fun p => decide (keyOf p.2 = k))).length
          ≤ snapshot.length := List.length_filter_le _ _
        _ < 2 := by omega

theorem length_enumFromE (n : Nat) (l : List Entry) :
    (enumFromE n l).length = l.length := by
  induction l generalizing n with
  | nil => rfl
  | cons e es ih => simp [enumFromE, ih]

theorem netting_core_short (θ : ℚ) (hasDate : Bool) (df : List Entry)
    (h : df.length ≤ 1) :
    netting_core θ hasDate df = ((fun _ => false), []) := by
  have hlen : (enumFromE 0 df).length ≤ 1 := by
    rw [length_enumFromE]
    exact h
  have h1 := outerLoopL_short θ (fun _ => false) [] (enumFromE 0 df) hlen
  cases hasDate with
  | false =>
    simp only [netting_core, Bool.false_eq_true, if_false, h1]
  | true =>
    simp only [netting_core, if_true, h1, pass2, pass3]
    rw [groupPassGo_short _ _ _ _ (le_trans (List.length_filter_le _ _) hlen)]
    rw [groupPassGo_short _ _ _ _ (le_trans (List.length_filter_le _ _) hlen)]

theorem length_sortByAbsDesc (l : List Entry) :
    (sortByAbsDesc l).length = l.length := by
  induction l with
  | nil => rfl
  | cons x xs ih =>
    rw [sortByAbsDesc, List.length_cons, ← ih]
    generalize sortByAbsDesc xs = ys
    induction ys with
    | nil => rfl
    | cons y ys ihy =>
      rw [insertDesc]
      by_cases h : |y.value| ≤ |x.value|
      · rw [if_pos h]
        simp
      · rw [if_neg h]
        simp only [List.length_cons]
        omega

theorem find_recs_eq (θ : ℚ) (hasDate : Bool) (l : List Entry)
    (h : ¬l.length ≤ 1) :
    (find_and_remove_netting_items θ hasDate l).2 =
      (netting_core θ hasDate (sortByAbsDesc l)).2 := by
  rw [find_and_remove_netting_items, if_neg h, apply_ite Prod.snd, ite_self]

/-! ## Disjointness of the emitted records' member sets -/

/-- All members of all emitted records are marked used. -/
def UsedRecs (used : Nat → Bool) (recs : List NetRec) : Prop :=
  ∀ r ∈ recs, ∀ i ∈ r.memberIdxs, used i = true

/-- The member-index sets of the records are pairwise disjoint. -/
def DisjRecs (recs : List NetRec) : Prop :=
  List.Pairwise (fun r₁ r₂ => ∀ i ∈ r₁.memberIdxs, i ∉ r₂.memberIdxs) recs

theorem usedRecs_append_one {used : Nat → Bool} {recs : List NetRec}
    {r : NetRec} (h : UsedRecs used recs) (hr : ∀ i ∈ r.memberIdxs, used i = true) :
    UsedRecs used (recs ++ [r]) := by
  intro r' hr' i hi
  rcases List.mem_append.1 hr' with hr' | hr'
  · exact h r' hr' i hi
  · rcases List.mem_singleton.1 hr' with rfl
    exact hr i hi

theorem usedRecs_mono {u v : Nat → Bool} {recs : List NetRec}
    (h : UsedRecs u recs) (huv : ∀ i, u i = true → v i = true) :
    UsedRecs v recs :=
  fun r hr i hi => huv i (h r hr i hi)

theorem disjRecs_append_one {used : Nat → Bool} {recs : List NetRec}
    {r : NetRec} (h : DisjRecs recs) (hused : UsedRecs used recs)
    (hnew : ∀ i ∈ r.memberIdxs, used i = false) :
    DisjRecs (recs ++ [r]) := by
  rw [DisjRecs, List.pairwise_append]
  refine ⟨h, List.pairwise_singleton _ _, ?_⟩
  intro r₁ hr₁ r₂ hr₂
  rcases List.mem_singleton.1 hr₂ with rfl
  intro i hi hmem
  have h1 := hused r₁ hr₁ i hi
  have h2 := hnew i hmem
  rw [h1] at h2
  simp at h2

theorem outerLoopL_disjoint (θ : ℚ) :
    ∀ (l : List (Nat × Entry)) (used : Nat → Bool) (recs : List NetRec),
      NoDupIdx l → UsedRecs used recs → DisjRecs recs →
      UsedRecs (outerLoopL θ used recs l).1 (outerLoopL θ used recs l).2 ∧
        DisjRecs (outerLoopL θ used recs l).2 := by
  intro l
  induction l with
  | nil =>
    intro used recs _ h1 h2
    exact ⟨h1, h2⟩
  | cons p ps ih =>
    intro used recs hnd h1 h2
    have hnd' : NoDupIdx ps := (List.pairwise_cons.1 hnd).2
    have hp : ∀ b ∈ ps, p.1 ≠ b.1 := (List.pairwise_cons.1 hnd).1
    by_cases hu : used p.1
    · rw [outerLoopL, if_pos hu]
      exact ih used recs hnd' h1 h2
    · rw [outerLoopL, if_neg hu]
      cases hscan : innerScanL θ used p.2.value ps with
      | none => exact ih used recs hnd' h1 h2
      | some q =>
        obtain ⟨hqmem, hqused, _⟩ := innerScanL_some hscan
        have hpq : p.1 ≠ q.1 := hp q hqmem
        have hnewUnused : ∀ i ∈ (mkPair p q).memberIdxs, used i = false := by
          intro i hi
          rcases List.mem_cons.1 hi with hi | hi
          · subst hi
            simpa using hu
          · rcases List.mem_singleton.1 hi with rfl
            exact hqused
        have hmarked : ∀ i ∈ (mkPair p q).memberIdxs,
            mark (mark used p.1) q.1 i = true := by
          intro i hi
          rcases List.mem_cons.1 hi with hi | hi
          · subst hi
            exact mark_mono (mark_apply_self used p.1)
          · rcases List.mem_singleton.1 hi with rfl
            exact mark_apply_self _ _
        have h1' : UsedRecs (mark (mark used p.1) q.1) (recs ++ [mkPair p q]) :=
          usedRecs_append_one
            (usedRecs_mono h1 (fun i hi => mark_mono (mark_mono hi))) hmarked
        have h2' : DisjRecs (recs ++ [mkPair p q]) :=
          disjRecs_append_one h2 h1 hnewUnused
        exact ih _ _ hnd' h1' h2'

theorem groupPassGo_disjoint {κ : Type} [DecidableEq κ] (θ : ℚ)
    (keyOf : Entry → κ) (mkRec : κ → List (Nat × Entry) → NetRec)
    (snapshot : List (Nat × Entry)) (hndS : NoDupIdx snapshot)
    (hmki : ∀ k grp, (mkRec k grp).memberIdxs = grp.map (fun p => p.1)) :
    ∀ (keys : List κ) (used : Nat → Bool) (recs : List NetRec),
      keys.Nodup →
      (∀ k ∈ keys, ∀ p ∈ snapshot, keyOf p.2 = k → used p.1 = false) →
      UsedRecs used recs → DisjRecs recs →
      UsedRecs (groupPassGo θ keyOf mkRec snapshot keys used recs).1
          (groupPassGo θ keyOf mkRec snapshot keys used recs).2 ∧
        DisjRecs (groupPassGo θ keyOf mkRec snapshot keys used recs).2 := by
  intro keys
  induction keys with
  | nil =>
    intro used recs _ _ h1 h2
    exact ⟨h1, h2⟩
  | cons k ks ih =>
    intro used recs hknd hfresh h1 h2
    have hknd' : ks.Nodup := (List.nodup_cons.1 hknd).2
    have hkk : k ∉ ks := (List.nodup_cons.1 hknd).1
    have hfresh₀ : ∀ k' ∈ ks, ∀ p ∈ snapshot, keyOf p.2 = k' → used p.1 = false :=
      fun k' hk' p hp hkey => hfresh k' (List.mem_cons_of_mem k hk') p hp hkey
    rw [groupPassGo]
    set grp := snapshot.filter (fun p => decide (keyOf p.2 = k)) with hgrp
    by_cases hlen : grp.length < 2
    · rw [if_pos hlen]
      exact ih used recs hknd' hfresh₀ h1 h2
    · rw [if_neg hlen]
      by_cases hsum : |sumValues (grp.map (fun p => p.2))| < θ
      · rw [if_pos hsum]
        have hgu : ∀ p ∈ grp, used p.1 = false := by
          intro p hp
          refine hfresh k (List.mem_cons_self k ks) p (List.mem_of_mem_filter hp) ?_
          have := List.of_mem_filter hp
          simpa using this
        have hnewUnused : ∀ i ∈ (mkRec k grp).memberIdxs, used i = false := by
          intro i hi
          rw [hmki] at hi
          obtain ⟨g, hg, rfl⟩ := List.mem_map.1 hi
          exact hgu g hg
        have hmarked : ∀ i ∈ (mkRec k grp).memberIdxs,
            markAll used (grp.map (fun p => p.1)) i = true := by
          intro i hi
          rw [hmki] at hi
          exact markAll_apply_of_mem hi
        have h1' : UsedRecs (markAll used (grp.map (fun p => p.1)))
            (recs ++ [mkRec k grp]) :=
          usedRecs_append_one (usedRecs_mono h1 (fun i hi => markAll_mono hi))
            hmarked
        have h2' : DisjRecs (recs ++ [mkRec k grp]) :=
          disjRecs_append_one h2 h1 hnewUnused
        have hfresh' : ∀ k' ∈ ks, ∀ p ∈ snapshot, keyOf p.2 = k' →
            (markAll used (grp.map (fun p => p.1))) p.1 = false := by
          intro k' hk' p hp hkey
          have hnotin : p.1 ∉ grp.map (fun p => p.1) := by
            intro hin
            obtain ⟨g, hg, hgeq⟩ := List.mem_map.1 hin
            have : g = p := idx_inj hndS (List.mem_of_mem_filter hg) hp hgeq
            subst this
            have := List.of_mem_filter hg
            simp only [decide_eq_true_eq] at this
            rw [hkey] at this
            exact hkk (this ▸ hk')
          rw [markAll_apply_of_not_mem hnotin]
          exact hfresh₀ k' hk' p hp hkey
        exact ih _ _ hknd' hfresh' h1' h2'
      · rw [if_neg hsum]
        exact ih used recs hknd' hfresh₀ h1 h2

theorem pass2_disjoint (θ : ℚ) (df : List Entry) (used : Nat → Bool)
    (recs : List NetRec) (h1 : UsedRecs used recs) (h2 : DisjRecs recs) :
    UsedRecs (pass2 θ (enumFromE 0 df) used recs).1
        (pass2 θ (enumFromE 0 df) used recs).2 ∧
      DisjRecs (pass2 θ (enumFromE 0 df) used recs).2 := by
  have hnd := nodupIdx_enumFromE 0 df
  simp only [pass2]
  apply groupPassGo_disjoint θ salesTenderKey _ _
    (List.Pairwise.sublist (List.filter_sublist _) hnd)
    (fun k grp => rfl) _ _ _ (List.nodup_dedup _) ?_ h1 h2
  intro k _ p hp _
  have := List.of_mem_filter hp
  simpa using this

theorem pass3_disjoint (θ : ℚ) (df : List Entry) (used : Nat → Bool)
    (recs : List NetRec) (h1 : UsedRecs used recs) (h2 : DisjRecs recs) :
    UsedRecs (pass3 θ (enumFromE 0 df) used recs).1
        (pass3 θ (enumFromE 0 df) used recs).2 ∧
      DisjRecs (pass3 θ (enumFromE 0 df) used recs).2 := by
  have hnd := nodupIdx_enumFromE 0 df
  simp only [pass3]
  apply groupPassGo_disjoint θ Entry.salesDate _ _
    (List.Pairwise.sublist (List.filter_sublist _) hnd)
    (fun k grp => rfl) _ _ _ (List.nodup_dedup _) ?_ h1 h2
  intro k _ p hp _
  have := List.of_mem_filter hp
  simpa using this

/-- After the three passes, every member of every record is marked used,
and the member-index sets of the records are pairwise disjoint. -/
theorem netting_core_disjoint (θ : ℚ) (hasDate : Bool) (df : List Entry) :
    UsedRecs (netting_core θ hasDate df).1 (netting_core θ hasDate df).2 ∧
      DisjRecs (netting_core θ hasDate df).2 := by
  have hnd := nodupIdx_enumFromE 0 df
  have h1 := outerLoopL_disjoint θ (enumFromE 0 df) (fun _ => false) []
    hnd (by intro r hr; simp at hr) (List.Pairwise.nil)
  by_cases hd : hasDate
  · simp only [netting_core, hd, if_true]
    have h2 := pass2_disjoint θ df _ _ h1.1 h1.2
    exact pass3_disjoint θ df _ _ h2.1 h2.2
  · simp only [netting_core, hd, if_false]
    exact h1

/-! ## Provenance of the netter's outputs -/

theorem find_survivors_mem (θ : ℚ) (hasDate : Bool) (l : List Entry) :
    ∀ e ∈ (find_and_remove_netting_items θ hasDate l).1, e ∈ l := by
  intro e he
  simp only [find_and_remove_netting_items] at he
  split at he
  · split at he
    · exact he
    · simp at he
  · split at he
    · obtain ⟨p, hp, rfl⟩ := List.mem_map.1 he
      exact mem_sortByAbsDesc.1 (snd_mem_of_mem_enumFromE (List.mem_of_mem_filter hp))
    · simp at he

theorem find_recs_member_store (θ : ℚ) (hasDate : Bool) (l : List Entry) :
    ∀ r ∈ (find_and_remove_netting_items θ hasDate l).2,
      ∃ m, m ∈ r.members ∧ r.storeId = m.storeId ∧ m ∈ l := by
  intro r hr
  by_cases hlen : l.length ≤ 1
  · simp only [find_and_remove_netting_items, if_pos hlen] at hr
    rw [apply_ite Prod.snd, ite_self] at hr
    simp at hr
  · rw [find_recs_eq θ hasDate l hlen] at hr
    have hP := netting_core_recs θ hasDate (sortByAbsDesc l)
      (fun r => ∃ m, m ∈ r.members ∧ r.storeId = m.storeId ∧ m ∈ sortByAbsDesc l)
      (by
        intro p q hp _ _
        exact ⟨p.2, by simp [mkPair], rfl, hp⟩)
      (by
        intro sd ts ty grp hne hsub _
        match grp, hne with
        | g :: gs, _ =>
          refine ⟨g.2, ?_, rfl, hsub g (List.mem_cons_self g gs)⟩
          simp [mkGroupRec])
      r hr
    obtain ⟨m, h1, h2, h3⟩ := hP
    exact ⟨m, h1, h2, mem_sortByAbsDesc.1 h3⟩

theorem mem_store_totals {c : List Entry} {s : Int} {q : ℚ} :
    (s, q) ∈ store_totals c ↔ s ∈ storeIdsOf c ∧ q = net_total c s := by
  simp only [store_totals, List.mem_map, Prod.mk.injEq]
  constructor
  · rintro ⟨a, ha, rfl, rfl⟩
    exact ⟨ha, rfl⟩
  · rintro ⟨h1, rfl⟩
    exact ⟨s, h1, rfl, rfl⟩

theorem mem_candidate_stores {c : List Entry} {s : Int} {q : ℚ} :
    (s, q) ∈ candidate_stores c ↔
      s ∈ storeIdsOf c ∧ q = net_total c s ∧ 100 ≤ |q| := by
  rw [candidate_stores, List.mem_filter, mem_store_totals]
  simp [and_assoc]

theorem store_all_storeId {c : List Entry} {s : Int} :
    ∀ e ∈ store_all c s, e.storeId = s := by
  intro e he
  have := List.of_mem_filter he
  simpa using this

theorem mem_candidateIds {c : List Entry} {s : Int}
    (h : s ∈ (candidate_stores c).map (fun p => p.1)) :
    100 ≤ |net_total c s| := by
  obtain ⟨⟨s', q⟩, hq, hs⟩ := List.mem_map.1 h
  obtain ⟨_, h2, h3⟩ := mem_candidate_stores.1 hq
  cases hs
  rwa [← h2]

/-! ## The claims -/

/-- C1: in the pairwise netting pass, the entries are first sorted by
descending absolute value; then, scanning that order, every
not-yet-used entry is paired with the first subsequent not-yet-used
entry whose combined value is below the netting threshold (both are
marked used, exactly one record is emitted per pair, and the scan for
the entry stops), which is exactly the behaviour of the greedy
first-eligible-partner specification `greedyPairSpec`; each pair record
is Within-Tender when the two entries share a tender type and
Cross-Tender otherwise. -/
theorem claim1_pairwise_pass (θ : ℚ) (l : List Entry) :
    List.Sorted absDescRel (sortByAbsDesc l) ∧
    (outerLoopL θ (fun _ => false) [] (enumFromE 0 (sortByAbsDesc l))).2 =
      (greedyPairSpec θ (enumFromE 0 (sortByAbsDesc l))).2 ∧
    (enumFromE 0 (sortByAbsDesc l)).filter (fun p =>
        !(outerLoopL θ (fun _ => false) [] (enumFromE 0 (sortByAbsDesc l))).1 p.1) =
      (greedyPairSpec θ (enumFromE 0 (sortByAbsDesc l))).1 ∧
    ∀ r ∈ (outerLoopL θ (fun _ => false) [] (enumFromE 0 (sortByAbsDesc l))).2,
      ∃ a b : Entry, r.members = [a, b] ∧
        r.nettingType = (if a.tenderType = b.tenderType then
          NettingType.withinTender else NettingType.crossTender) := by
  obtain ⟨h1, h2, _⟩ := outerLoopL_spec θ (enumFromE 0 (sortByAbsDesc l))
    (fun _ => false) [] (nodupIdx_enumFromE 0 (sortByAbsDesc l))
  refine ⟨sorted_sortByAbsDesc l, ?_, ?_, ?_⟩
  · rw [h1]
    simp
  · rw [h2]
    simp
  · refine outerLoopL_recs θ
      (fun r => ∃ a b : Entry, r.members = [a, b] ∧
        r.nettingType = (if a.tenderType = b.tenderType then
          NettingType.withinTender else NettingType.crossTender))
      (enumFromE 0 (sortByAbsDesc l)) (fun _ => false) [] (by simp) ?_
    intro p q _ _ _
    refine ⟨p.2, q.2, rfl, ?_⟩
    by_cases h : p.2.tenderType = q.2.tenderType
    · simp [mkPair, h]
    · simp [mkPair, h]

/-- C1 witness: the theorem instantiated at threshold 5 and a concrete
two-entry store, its last conjunct applied to the emitted pair record. -/
theorem claim1_witness :
    ((outerLoopL 5 (fun _ => false) []
        (enumFromE 0 (sortByAbsDesc
          [⟨1, "Cash", "d", "x", 100⟩, ⟨1, "Card", "d", "x", -99⟩]))).2 =
      (greedyPairSpec 5 (enumFromE 0 (sortByAbsDesc
        [⟨1, "Cash", "d", "x", 100⟩, ⟨1, "Card", "d", "x", -99⟩]))).2) ∧
    ∃ a b : Entry,
      (mkPair (0, ⟨1, "Cash", "d", "x", 100⟩)
        (1, ⟨1, "Card", "d", "x", -99⟩)).members = [a, b] ∧
      (mkPair (0, ⟨1, "Cash", "d", "x", 100⟩)
        (1, ⟨1, "Card", "d", "x", -99⟩)).nettingType =
        (if a.tenderType = b.tenderType then NettingType.withinTender
         else NettingType.crossTender) :=
  ⟨(claim1_pairwise_pass 5 _).2.1,
   (claim1_pairwise_pass 5
      [⟨1, "Cash", "d", "x", 100⟩, ⟨1, "Card", "d", "x", -99⟩]).2.2.2
    (mkPair (0, ⟨1, "Cash", "d", "x", 100⟩) (1, ⟨1, "Card", "d", "x", -99⟩))
    (by norm_num [sortByAbsDesc, insertDesc, enumFromE, outerLoopL,
      innerScanL, mark])⟩

/-- C2: every record emitted by any of the three passes has
|sum of member values| strictly below the netting threshold. -/
theorem claim2_netting_invariant (θ : ℚ) (hasDate : Bool) (l : List Entry) :
    ∀ r ∈ (find_and_remove_netting_items θ hasDate l).2,
      |sumValues r.members| < θ := by
  intro r hr
  by_cases hlen : l.length ≤ 1
  · simp only [find_and_remove_netting_items, if_pos hlen] at hr
    rw [apply_ite Prod.snd, ite_self] at hr
    simp at hr
  · rw [find_recs_eq θ hasDate l hlen] at hr
    refine netting_core_recs θ hasDate (sortByAbsDesc l)
      (fun r => |sumValues r.members| < θ) ?_ ?_ r hr
    · intro p q _ _ hvar
      simpa [mkPair, sumValues] using hvar
    · intro sd ts ty grp _ _ hsum
      simpa [mkGroupRec] using hsum

/-- C2 witness: the invariant holds of the record emitted for a concrete
two-entry store at threshold 5. -/
theorem claim2_witness :
    |sumValues (mkPair (0, ⟨1, "Cash", "d", "x", 100⟩)
      (1, ⟨1, "Card", "d", "x", -99⟩)).members| < 5 :=
  claim2_netting_invariant 5 false
    [⟨1, "Cash", "d", "x", 100⟩, ⟨1, "Card", "d", "x", -99⟩]
    (mkPair (0, ⟨1, "Cash", "d", "x", 100⟩) (1, ⟨1, "Card", "d", "x", -99⟩))
    (by norm_num [find_and_remove_netting_items, netting_core, sortByAbsDesc,
      insertDesc, enumFromE, outerLoopL, innerScanL, mark, sumValues])

/-- C3 counterexample: a candidate store (net total exactly 100, three
entries 102, -98, 96 at threshold 5) where the pairwise pass nets
(102, -98) and the remaining entry 96 is below the final acceptance
gate, so the returned exceptional set is empty: the sum of the returned
entries plus the sum of the netted members is 4, not the store's
net total 100.  Conservation fails for the *returned* survivors. -/
theorem claim3_counterexample :
    100 ≤ |net_total [⟨1, "Cash", "d1", "x", 102⟩, ⟨1, "Cash", "d2", "x", -98⟩,
        ⟨1, "Cash", "d3", "x", 96⟩] 1| ∧
    (find_and_remove_netting_items 5 true
      [⟨1, "Cash", "d1", "x", 102⟩, ⟨1, "Cash", "d2", "x", -98⟩,
       ⟨1, "Cash", "d3", "x", 96⟩]).1 = [] ∧
    sumValues ((find_and_remove_netting_items 5 true
        [⟨1, "Cash", "d1", "x", 102⟩, ⟨1, "Cash", "d2", "x", -98⟩,
         ⟨1, "Cash", "d3", "x", 96⟩]).1) +
      recsMemberSum ((find_and_remove_netting_items 5 true
        [⟨1, "Cash", "d1", "x", 102⟩, ⟨1, "Cash", "d2", "x", -98⟩,
         ⟨1, "Cash", "d3", "x", 96⟩]).2) = 4 ∧
    sumValues [⟨1, "Cash", "d1", "x", 102⟩, ⟨1, "Cash", "d2", "x", -98⟩,
      ⟨1, "Cash", "d3", "x", 96⟩] = 100 ∧
    (4 : ℚ) ≠ 100 := by
  refine ⟨?_, ?_, ?_, ?_, by norm_num⟩ <;>
    norm_num [net_total, store_all, find_and_remove_netting_items,
      netting_core, sortByAbsDesc, insertDesc, enumFromE, outerLoopL,
      innerScanL, mark, markAll, pass2, pass3, groupPassGo, salesTenderKey,
      mkPair, mkGroupRec, sumValues, recsMemberSum]

/-- C3 amended: conservation holds for the surviving entries *before*
the final `>= 100 - 1e-6` acceptance gate: the sum of the not-yet-used
entries after all passes plus the sum of all netted members' values
equals the store's total, exactly. -/
theorem claim3_conservation_amended (θ : ℚ) (hasDate : Bool) (l : List Entry) :
    sumValues (preGateSurvivors θ hasDate (sortByAbsDesc l)) +
      recsMemberSum ((find_and_remove_netting_items θ hasDate l).2) =
        sumValues l := by
  by_cases hlen : l.length ≤ 1
  · have hsort : (sortByAbsDesc l).length ≤ 1 := by
      rw [length_sortByAbsDesc]
      exact hlen
    have hcore := netting_core_short θ hasDate (sortByAbsDesc l) hsort
    have hrecs : (find_and_remove_netting_items θ hasDate l).2 = [] := by
      simp only [find_and_remove_netting_items, if_pos hlen]
      rw [apply_ite Prod.snd, ite_self]
    rw [hrecs, preGateSurvivors, hcore]
    have : (enumFromE 0 (sortByAbsDesc l)).filter
        (fun p => !((fun _ : Nat => false), ([] : List NetRec)).1 p.1) =
        enumFromE 0 (sortByAbsDesc l) :=
      List.filter_eq_self.2 (fun p _ => rfl)
    rw [this, map_snd_enumFromE, sumValues_sortByAbsDesc]
    simp [recsMemberSum]
  · rw [find_recs_eq θ hasDate l hlen]
    have := netting_core_conserve θ hasDate (sortByAbsDesc l)
    rw [sumValues_sortByAbsDesc] at this
    exact this

/-- C6: a store frame with exactly one entry is never netted and emits
no record; the entry survives iff its absolute value is at least 100
(an exact comparison), and otherwise it is discarded with no record. -/
theorem claim6_single_entry (θ : ℚ) (hasDate : Bool) (e : Entry) :
    find_and_remove_netting_items θ hasDate [e] =
      if 100 ≤ |e.value| then ([e], []) else ([], []) := by
  rw [find_and_remove_netting_items, if_pos (by simp)]
  simp [sumValues]

/-- C10: across all three passes, the member-index sets of the emitted
records are pairwise disjoint, and every member index of every record
is absent from the pre-gate surviving rows. -/
theorem claim10_disjointness (θ : ℚ) (hasDate : Bool) (l : List Entry) :
    DisjRecs ((find_and_remove_netting_items θ hasDate l).2) ∧
    ∀ r ∈ (find_and_remove_netting_items θ hasDate l).2, ∀ i ∈ r.memberIdxs,
      ∀ p ∈ (enumFromE 0 (sortByAbsDesc l)).filter (fun p =>
        !(netting_core θ hasDate (sortByAbsDesc l)).1 p.1), p.1 ≠ i := by
  by_cases hlen : l.length ≤ 1
  · have hrecs : (find_and_remove_netting_items θ hasDate l).2 = [] := by
      simp only [find_and_remove_netting_items, if_pos hlen]
      rw [apply_ite Prod.snd, ite_self]
    rw [hrecs]
    exact ⟨List.Pairwise.nil, by simp⟩
  · rw [find_recs_eq θ hasDate l hlen]
    obtain ⟨hused, hdisj⟩ := netting_core_disjoint θ hasDate (sortByAbsDesc l)
    refine ⟨hdisj, ?_⟩
    intro r hr i hi p hp hpi
    have h1 : (netting_core θ hasDate (sortByAbsDesc l)).1 i = true :=
      hused r hr i hi
    have h2 := List.of_mem_filter hp
    rw [hpi] at h2
    rw [h1] at h2
    simp at h2

/-- C4 counterexample: an absolute total of exactly 100 is classified
into the first bucket, not the second: the source's first range check
`0 <= abs_total <= 100` is inclusive at 100. -/
theorem claim4_counterexample :
    classify_total_response 100 = "Diff less than +/- 100" ∧
    "Diff less than +/- 100" ≠ "Diff b/w +/- 1000" := by
  constructor
  · norm_num [classify_total_response, classifyGo, classification_thresholds,
      leHi]
  · decide

/-- C4 amended: the classifier is a pure function of the absolute total
whose effective buckets are [0,100], (100,1000], (1000,5000],
(5000,10000], (10000,25000], (25000,50000], (50000,inf): exactly 100
falls in the first bucket, exactly 1000 falls in the plus-minus-1000 bucket,
and every value receives exactly one label (the scan is total, with the
top bucket as the default). -/
theorem claim4_classifier_amended (t : ℚ) :
    classify_total_response t =
      (if |t| ≤ 100 then "Diff less than +/- 100"
       else if |t| ≤ 1000 then "Diff b/w +/- 1000"
       else if |t| ≤ 5000 then "Diff b/w +/- 5000"
       else if |t| ≤ 10000 then "Diff b/w +/- 10000"
       else if |t| ≤ 25000 then "Diff b/w +/- 25000"
       else if |t| ≤ 50000 then "Diff b/w +/- 50000"
       else "Diff more than +/- 50000") := by
  have ha : (0 : ℚ) ≤ |t| := abs_nonneg t
  simp only [classify_total_response, classification_thresholds, classifyGo,
    leHi]
  by_cases h1 : |t| ≤ 100
  · rw [if_pos (by simp [ha, h1]), if_pos h1]
  · rw [if_neg (by simp [h1]), if_neg h1]
    have h1' : 100 ≤ |t| := le_of_not_le h1
    by_cases h2 : |t| ≤ 1000
    · rw [if_pos (by simp [h1', h2]), if_pos h2]
    · rw [if_neg (by simp [h2]), if_neg h2]
      have h2' : 1000 ≤ |t| := le_of_not_le h2
      by_cases h3 : |t| ≤ 5000
      · rw [if_pos (by simp [h2', h3]), if_pos h3]
      · rw [if_neg (by simp [h3]), if_neg h3]
        have h3' : 5000 ≤ |t| := le_of_not_le h3
        by_cases h4 : |t| ≤ 10000
        · rw [if_pos (by simp [h3', h4]), if_pos h4]
        · rw [if_neg (by simp [h4]), if_neg h4]
          have h4' : 10000 ≤ |t| := le_of_not_le h4
          by_cases h5 : |t| ≤ 25000
          · rw [if_pos (by simp [h4', h5]), if_pos h5]
          · rw [if_neg (by simp [h5]), if_neg h5]
            have h5' : 25000 ≤ |t| := le_of_not_le h5
            by_cases h6 : |t| ≤ 50000
            · rw [if_pos (by simp [h5', h6]), if_pos h6]
            · rw [if_neg (by simp [h6]), if_neg h6]
              have h6' : 50000 ≤ |t| := le_of_not_le h6
              rw [if_pos (by simp [h6'])]

/-- The no-candidate early return of `process_all_tenders`
(lines 322-332). -/
theorem process_no_candidates (cfg : Config) (hasDate : Bool)
    (td : List (String × List Entry))
    (hproc : ¬(processedOf td).isEmpty = true)
    (hcand : (candidate_stores (combinedOf td)).isEmpty = true) :
    process_all_tenders cfg hasDate td =
      some { summary := []
             classification := []
             exceptions := ((processedOf td).map (fun p => p.1)).map
               (fun t => (t, []))
             netting_reference := []
             tender_performance := []
             tender_names := (processedOf td).map (fun p => p.1)
             total_stores := (store_totals (combinedOf td)).length
             exception_stores := 0 } := by
  simp only [process_all_tenders]
  rw [if_neg hproc, if_pos hcand]

/-- C5: gate correctness.  Every summary row, every netting record and
every entry of a per-tender exception table belongs to a store whose
absolute net total is at least 100, and candidacy is exactly
`|net_total| >= 100` (no tolerance): stores below the gate appear in no
store-bearing output table (the classification and metrics tables carry
no store identifiers at all). -/
theorem claim5_gate_correctness (cfg : Config) (hasDate : Bool)
    (td : List (String × List Entry)) (b : ResultBundle)
    (hb : process_all_tenders cfg hasDate td = some b) :
    (∀ row ∈ b.summary, 100 ≤ |net_total (combinedOf td) row.storeId|) ∧
    (∀ r ∈ b.netting_reference, 100 ≤ |net_total (combinedOf td) r.storeId|) ∧
    (∀ t le, (t, le) ∈ b.exceptions → ∀ e ∈ le,
      100 ≤ |net_total (combinedOf td) e.storeId|) ∧
    (∀ s : Int, (∃ q, (s, q) ∈ candidate_stores (combinedOf td)) ↔
      (s ∈ storeIdsOf (combinedOf td) ∧
        100 ≤ |net_total (combinedOf td) s|)) := by
  have hcand_iff : ∀ s : Int,
      (∃ q, (s, q) ∈ candidate_stores (combinedOf td)) ↔
      (s ∈ storeIdsOf (combinedOf td) ∧
        100 ≤ |net_total (combinedOf td) s|) := by
    intro s
    constructor
    · rintro ⟨q, hq⟩
      obtain ⟨h1, h2, h3⟩ := mem_candidate_stores.1 hq
      exact ⟨h1, h2 ▸ h3⟩
    · rintro ⟨h1, h2⟩
      exact ⟨net_total (combinedOf td) s, mem_candidate_stores.2 ⟨h1, rfl, h2⟩⟩
  simp only [process_all_tenders] at hb
  by_cases hproc : (processedOf td).isEmpty
  · rw [if_pos hproc] at hb
    simp at hb
  · rw [if_neg hproc] at hb
    by_cases hcand : (candidate_stores (combinedOf td)).isEmpty
    · rw [if_pos hcand, Option.some_inj] at hb
      subst hb
      refine ⟨by simp, by simp, ?_, hcand_iff⟩
      intro t le hle e he
      simp only at hle
      obtain ⟨t', _, heq⟩ := List.mem_map.1 hle
      rw [Prod.mk.injEq] at heq
      rw [← heq.2] at he
      simp at he
    · rw [if_neg hcand, Option.some_inj] at hb
      subst hb
      refine ⟨?_, ?_, ?_, hcand_iff⟩
      · intro row hrow
        simp only [summaryOf] at hrow
        obtain ⟨s, hs, hrow2⟩ := List.mem_filterMap.1 hrow
        have hsid : row.storeId = s := by
          simp only [summaryRowOf] at hrow2
          split at hrow2
          · simp at hrow2
          · split at hrow2
            · rw [Option.some_inj] at hrow2
              rw [← hrow2]
            · simp at hrow2
        rw [hsid]
        exact mem_candidateIds hs
      · intro r hr
        simp only at hr
        obtain ⟨lr, hlr, hrin⟩ := List.mem_flatten.1 hr
        obtain ⟨⟨s, pr⟩, hps, hpr⟩ := List.mem_map.1 hlr
        simp only [perStoreOf] at hps
        obtain ⟨s', hs', heq⟩ := List.mem_map.1 hps
        rw [Prod.mk.injEq] at heq
        obtain ⟨h1, h2⟩ := heq
        subst h1
        rw [← h2] at hpr
        rw [← hpr] at hrin
        obtain ⟨m, _, hm2, hm3⟩ :=
          find_recs_member_store cfg.netting_off_threshold hasDate
            (store_all (combinedOf td) s') r hrin
        rw [hm2, store_all_storeId m hm3]
        exact mem_candidateIds hs'
      · intro t le hle e he
        simp only [exceptionsOf] at hle
        obtain ⟨t', _, heq⟩ := List.mem_map.1 hle
        rw [Prod.mk.injEq] at heq
        rw [← heq.2] at he
        obtain ⟨lr, hlr, hein⟩ := List.mem_flatten.1 he
        obtain ⟨exc, hexc, hfil⟩ := List.mem_map.1 hlr
        rw [← hfil] at hein
        have hein' : e ∈ exc := List.mem_of_mem_filter hein
        simp only [acceptedExcOf] at hexc
        obtain ⟨⟨s, pr⟩, hps, hg⟩ := List.mem_filterMap.1 hexc
        split at hg
        · rw [Option.some_inj] at hg
          rw [← hg] at hein'
          simp only [perStoreOf] at hps
          obtain ⟨s', hs', heq2⟩ := List.mem_map.1 hps
          rw [Prod.mk.injEq] at heq2
          obtain ⟨h1, h2⟩ := heq2
          subst h1
          rw [← h2] at hein'
          have := find_survivors_mem cfg.netting_off_threshold hasDate
            (store_all (combinedOf td) s') e hein'
          rw [store_all_storeId e this]
          exact mem_candidateIds hs'
        · simp at hg

/-- C5 witness: at a concrete one-store input whose net total is 150,
the candidacy characterisation yields a candidate record for store 1. -/
theorem claim5_witness :
    ∃ q, ((1 : Int), q) ∈ candidate_stores (combinedOf
      [("cash", [⟨1, "cash", "", "x", 150⟩])]) := by
  cases ho : process_all_tenders ⟨5, "all"⟩ false
      [("cash", [⟨1, "cash", "", "x", 150⟩])] with
  | none =>
    exfalso
    simp only [process_all_tenders] at ho
    rw [if_neg (by norm_num [processedOf])] at ho
    split at ho <;> simp at ho
  | some b =>
    refine ((claim5_gate_correctness ⟨5, "all"⟩ false _ b ho).2.2.2 1).mpr
      ⟨?_, ?_⟩
    · norm_num [combinedOf, processedOf, storeIdsOf]
    · norm_num [net_total, combinedOf, processedOf, sumValues]

/-- C8: the approval filter mode is dead configuration: for every input,
running the engine with mode `'all'` and with mode `'auto_approved_only'`
produces identical result bundles, the ingestion row filter is identical
in both modes, and the approval-marker blacklist is enforced in both
modes (no surviving entry carries a blacklisted marker). -/
theorem claim8_mode_noninterference (θ : ℚ) (hasDate : Bool)
    (files : List (String × List RawRow)) (t : String) (rows : List RawRow) :
    run_engine ⟨θ, "all"⟩ hasDate files =
      run_engine ⟨θ, "auto_approved_only"⟩ hasDate files ∧
    read_tender_rows ⟨θ, "all"⟩ t rows =
      read_tender_rows ⟨θ, "auto_approved_only"⟩ t rows ∧
    ∀ (cfg : Config) (e : Entry), e ∈ read_tender_rows cfg t rows →
      e.autoApproved ∉ approvalBlacklist := by
  refine ⟨rfl, rfl, ?_⟩
  intro cfg e he
  obtain ⟨r, _, hfe⟩ := List.mem_filterMap.1 he
  cases hi : r.storeId with
  | none =>
    rw [hi] at hfe
    simp at hfe
  | some sid =>
    cases hv : r.storeResponseEntry with
    | none =>
      rw [hi, hv] at hfe
      simp at hfe
    | some v =>
      rw [hi, hv] at hfe
      simp only at hfe
      split at hfe
      · simp at hfe
      · split at hfe
        case isTrue => simp at hfe
        case isFalse hmark =>
          split at hfe
          · simp at hfe
          · rw [Option.some_inj] at hfe
            rw [← hfe]
            exact hmark

/-- C8 witness: the theorem instantiated at a concrete configuration and
input row. -/
theorem claim8_witness :
    run_engine ⟨5, "all"⟩ false
        [("cash", [⟨some 1, some 50, "2024-01-01", "d"⟩])] =
      run_engine ⟨5, "auto_approved_only"⟩ false
        [("cash", [⟨some 1, some 50, "2024-01-01", "d"⟩])] ∧
    (⟨1, "cash", "d", "2024-01-01", 50⟩ : Entry).autoApproved ∉
      approvalBlacklist :=
  ⟨(claim8_mode_noninterference 5 false
      [("cash", [⟨some 1, some 50, "2024-01-01", "d"⟩])] "cash" []).1,
   (claim8_mode_noninterference 5 false [] "cash"
      [⟨some 1, some 50, "2024-01-01", "d"⟩]).2.2 ⟨5, "all"⟩
     ⟨1, "cash", "d", "2024-01-01", 50⟩
     (by
       apply List.mem_filterMap.2
       refine ⟨⟨some 1, some 50, "2024-01-01", "d"⟩, by simp, ?_⟩
       show (if (50 : ℚ) = 0 then none
         else
           let marker := pyStrip "2024-01-01"
           if marker ∈ approvalBlacklist then none
           else if marker.length = 0 then none
           else some ⟨1, "cash", "d", marker, 50⟩) =
         some (⟨1, "cash", "d", "2024-01-01", 50⟩ : Entry)
       rw [if_neg (by norm_num),
         show pyStrip "2024-01-01" = "2024-01-01" by decide]
       rw [if_neg (by decide), if_neg (by decide)])⟩

/-- C9 counterexample: one usable tender whose single store has net
total 50 (below the gate): the bundle's `total_stores` scalar is 1, not
zero, so "the scalar counts are zero" fails as stated. -/
theorem claim9_counterexample :
    ¬(processedOf [("cash", [⟨1, "cash", "", "x", 50⟩])]).isEmpty = true ∧
    (∀ p ∈ store_totals (combinedOf [("cash", [⟨1, "cash", "", "x", 50⟩])]),
      ¬100 ≤ |p.2|) ∧
    ((process_all_tenders ⟨5, "all"⟩ false
        [("cash", [⟨1, "cash", "", "x", 50⟩])]).getD default).total_stores = 1 ∧
    (1 : Nat) ≠ 0 := by
  have hcand : (candidate_stores (combinedOf
      [("cash", [⟨1, "cash", "", "x", 50⟩])])).isEmpty = true := by
    norm_num [candidate_stores, store_totals, storeIdsOf, net_total,
      combinedOf, processedOf, sumValues, List.dedup]
  refine ⟨by norm_num [processedOf], ?_, ?_, by norm_num⟩
  · intro p hp
    norm_num [store_totals, storeIdsOf, net_total, combinedOf, processedOf,
      sumValues, List.dedup] at hp
    subst hp
    norm_num
  · rw [process_no_candidates ⟨5, "all"⟩ false _
      (by norm_num [processedOf]) hcand]
    norm_num [store_totals, storeIdsOf, combinedOf, processedOf, List.dedup]

/-- C9 amended: when at least one tender yields usable entries but no
store reaches the candidate gate, the engine returns the explicitly
empty bundle: all five tables are empty and `exception_stores` is zero,
while `total_stores` reports the number of aggregated stores (which is
not zero). -/
theorem claim9_empty_bundle_amended (cfg : Config) (hasDate : Bool)
    (td : List (String × List Entry))
    (hproc : ¬(processedOf td).isEmpty = true)
    (hgate : ∀ p ∈ store_totals (combinedOf td), ¬100 ≤ |p.2|) :
    process_all_tenders cfg hasDate td =
      some { summary := []
             classification := []
             exceptions := ((processedOf td).map (fun p => p.1)).map
               (fun t => (t, []))
             netting_reference := []
             tender_performance := []
             tender_names := (processedOf td).map (fun p => p.1)
             total_stores := (store_totals (combinedOf td)).length
             exception_stores := 0 } := by
  apply process_no_candidates cfg hasDate td hproc
  rw [List.isEmpty_iff, candidate_stores, List.filter_eq_nil_iff]
  intro p hp
  simpa using hgate p hp

/-- C9 witness: the amended theorem applied to the concrete one-store
input with net total 50. -/
theorem claim9_witness :
    process_all_tenders ⟨5, "all"⟩ false
        [("cash", [⟨1, "cash", "", "x", 50⟩])] =
      some { summary := []
             classification := []
             exceptions := ((processedOf
               [("cash", [⟨1, "cash", "", "x", 50⟩])]).map (fun p => p.1)).map
               (fun t => (t, []))
             netting_reference := []
             tender_performance := []
             tender_names := (processedOf
               [("cash", [⟨1, "cash", "", "x", 50⟩])]).map (fun p => p.1)
             total_stores := (store_totals (combinedOf
               [("cash", [⟨1, "cash", "", "x", 50⟩])])).length
             exception_stores := 0 } :=
  claim9_empty_bundle_amended ⟨5, "all"⟩ false
    [("cash", [⟨1, "cash", "", "x", 50⟩])]
    (by norm_num [processedOf])
    (by
      intro p hp
      norm_num [store_totals, storeIdsOf, net_total, combinedOf, processedOf,
        sumValues, List.dedup] at hp
      subst hp
      norm_num)

/-- C7 counterexample: a single-entry store whose absolute value is
within 1e-6 below 100 (namely 100 - 1e-7) is discarded by the netter's
single-entry gate: that gate compares `total >= 100` exactly, with no
tolerance, so the claim that every >=100 comparison treats magnitudes
within 1e-6 below the boundary as passing is false. -/
theorem claim7_counterexample :
    100 - 1 / 1000000 ≤ |(100 - 1 / 10000000 : ℚ)| ∧
    (100 - 1 / 10000000 : ℚ) < 100 ∧
    find_and_remove_netting_items 5 false
      [⟨1, "Cash", "", "x", 100 - 1 / 10000000⟩] = ([], []) := by
  have habs : |(999999999 / 10000000 : ℚ)| = 999999999 / 10000000 :=
    abs_of_pos (by norm_num)
  refine ⟨by norm_num [habs], by norm_num, ?_⟩
  norm_num [find_and_remove_netting_items, sumValues, habs]

/-- C7 amended: only the final exceptional-sum gates compare against
`100 - 1e-6`; the single-entry survival gate and the candidate-exception
gate are exact, and the netting-threshold comparisons carry no
tolerance.  Behaviourally, for any magnitude `s` within 1e-6 below 100:
a single-entry store of value `s` is discarded (exact gate), a
two-entry store whose surviving sum is `s` is returned as exceptional
(tolerant final gate), and a store with net total `s` is not a
candidate (exact gate). -/
theorem claim7_tolerance_amended (s : ℚ) (h1 : 100 - 1 / 1000000 ≤ s)
    (h2 : s < 100) :
    find_and_remove_netting_items 5 false [⟨1, "Cash", "", "x", s⟩] =
      ([], []) ∧
    (find_and_remove_netting_items 5 false
      [⟨1, "Cash", "", "x", s + 1000⟩, ⟨1, "Card", "", "x", -1000⟩]).1 =
      [⟨1, "Cash", "", "x", s + 1000⟩, ⟨1, "Card", "", "x", -1000⟩] ∧
    candidate_stores [⟨1, "Cash", "", "x", s⟩] = [] := by
  have hs0 : (0 : ℚ) < s := by linarith
  have habs : |s| = s := abs_of_pos hs0
  have hsum : s + 1000 + -1000 = s := by ring
  have habs' : |s + 1000| = s + 1000 :=
    abs_of_pos (by linarith : (0 : ℚ) < s + 1000)
  have hc1 : (1000 : ℚ) ≤ |s + 1000| := by
    rw [habs']
    linarith
  have hfact : ¬(|s + 1000 + -1000| < (5 : ℚ)) := by
    rw [hsum, habs]
    linarith
  have hgate : 100 - 1 / 1000000 ≤ |s + 1000 + -1000| := by
    rw [hsum, habs]
    exact h1
  have hnotc : ¬(100 ≤ |s|) := by
    rw [habs]
    linarith
  have h1' : (99999999 / 1000000 : ℚ) ≤ s := by linarith
  have hge5 : ¬(s < 5) := by
    rw [← habs] at h1 ⊢
    intro hcon
    rw [habs] at hcon h1
    linarith
  refine ⟨?_, ?_, ?_⟩
  · rw [find_and_remove_netting_items, if_pos (by simp)]
    rw [if_neg (by simp [sumValues, habs]; linarith)]
  · norm_num [find_and_remove_netting_items, netting_core, sortByAbsDesc,
      insertDesc, enumFromE, outerLoopL, innerScanL, sumValues, hc1, hfact,
      hgate, habs, h1', hge5]
    simp
  · norm_num [candidate_stores, store_totals, storeIdsOf, net_total,
      sumValues, List.dedup, hnotc]

/-- C7 witness: the amended theorem instantiated at the magnitude
100 - 1e-7. -/
theorem claim7_witness :
    find_and_remove_netting_items 5 false
        [⟨1, "Cash", "", "x", 100 - 1 / 10000000⟩] = ([], []) ∧
    (find_and_remove_netting_items 5 false
      [⟨1, "Cash", "", "x", 100 - 1 / 10000000 + 1000⟩,
       ⟨1, "Card", "", "x", -1000⟩]).1 =
      [⟨1, "Cash", "", "x", 100 - 1 / 10000000 + 1000⟩,
       ⟨1, "Card", "", "x", -1000⟩] ∧
    candidate_stores [⟨1, "Cash", "", "x", 100 - 1 / 10000000⟩] = [] :=
  claim7_tolerance_amended (100 - 1 / 10000000) (by norm_num) (by norm_num)

/-- C10 witness: the survivor-disjointness conjunct applied to the pair
record of a concrete three-entry store: its member index 0 is not the
index of any pre-gate survivor. -/
theorem claim10_witness :
    ∀ p ∈ (enumFromE 0 (sortByAbsDesc [⟨1, "Cash", "d1", "x", 102⟩,
        ⟨1, "Cash", "d2", "x", -98⟩, ⟨1, "Cash", "d3", "x", 96⟩])).filter
        (fun p => !(netting_core 5 true (sortByAbsDesc
          [⟨1, "Cash", "d1", "x", 102⟩, ⟨1, "Cash", "d2", "x", -98⟩,
           ⟨1, "Cash", "d3", "x", 96⟩])).1 p.1), p.1 ≠ 0 :=
  (claim10_disjointness 5 true
      [⟨1, "Cash", "d1", "x", 102⟩, ⟨1, "Cash", "d2", "x", -98⟩,
       ⟨1, "Cash", "d3", "x", 96⟩]).2
    (mkPair (0, ⟨1, "Cash", "d1", "x", 102⟩) (1, ⟨1, "Cash", "d2", "x", -98⟩))
    (by norm_num [find_and_remove_netting_items, netting_core, sortByAbsDesc,
      insertDesc, enumFromE, outerLoopL, innerScanL, mark, markAll, pass2,
      pass3, groupPassGo, salesTenderKey, mkPair, mkGroupRec, sumValues])
    0 (by norm_num [mkPair])

end TenderRec
